import Mathlib

/-!
# Verification of the car-racing sorting visualizer (`src/script.js`)

The file shallowly embeds the sorting engine of the visualizer:

* the array of cars is a `List Item` (an `Item` is a stable identity `id`
  plus an integer `value`, mirroring the `{ value, el, color }` records:
  `id` stands for the DOM element identity, which never changes);
* `swapInArray`, `swapAnimated` and `moveElementToIndex` mirror the
  primitives of the first variant (lines 281-318);
* the four algorithms `bubbleSort`, `selectionSort`, `quickSort` and
  `mergeSort` mirror lines 376-431; each is instrumented to also return the
  list of `compare` / `swapAnimated` hook invocations (`Ev`) exactly where
  the source awaits those hooks;
* the `btnStart` click handler (lines 447-470) is modelled as a pure state
  transformer `btnStartClick`, and `generateValues` (lines 349-357) with the
  random source abstracted as an oracle.

For-loops are embedded as recursion on the number of remaining iterations;
array reads `cars[i].value` become `valAt l i` (`getD`-based).  JavaScript's
`findIndex` returning `-1` is embedded as `Option Nat`; the merge procedure
propagates a failed lookup as `none` (in the source such a lookup would make
`moveElementToIndex(-1, k)` throw).
-/

/-- An element of the visual sequence: a stable identity plus its value.
`id` models the DOM element (`el`/`color`), which the algorithms never
create or destroy; `value` is the sorted key. -/
structure Item where
  id : Nat
  value : Int
deriving DecidableEq, Repr

instance : Inhabited Item := ⟨⟨0, 0⟩⟩

/-- The value stored at index `i` of the car array (`cars[i].value`). -/
def valAt (l : List Item) (i : Nat) : Int := (l.getD i default).value

/-- Hook invocations awaited by the engine: `compare(i, j)` and the
animated part of `swapAnimated(i, j)` (which is skipped when `i = j`). -/
inductive Ev where
  | comp (i j : Nat) : Ev
  | swap (i j : Nat) : Ev
deriving DecidableEq, Repr

/-- Exchange the entries at positions `i` and `j` of a list.  This is the
semantics shared by `swapInArray` (line 281) and the destructuring swap of
the Fisher-Yates loop in `generateValues` (line 354).  Out-of-range indices
never occur in the program; they are embedded as a no-op. -/
def listSwap {α : Type} (l : List α) (i j : Nat) : List α :=
  match l[i]?, l[j]? with
  | some a, some b => (l.set i b).set j a
  | _, _ => l

/-- `swapInArray(i, j)` (line 281): `const t = cars[i]; cars[i] = cars[j];
cars[j] = t;`. -/
def swapInArray (l : List Item) (i j : Nat) : List Item := listSwap l i j

/-- `swapAnimated(i, j)` (lines 283-308): returns immediately when `i = j`,
otherwise fires the swap hook and performs `swapInArray`.  The second
component is the emitted hook trace. -/
def swapAnimatedRun (l : List Item) (i j : Nat) : List Item × List Ev :=
  if i = j then (l, []) else (swapInArray l i j, [.swap i j])

/-- The state part of `swapAnimated`. -/
def swapAnimated (l : List Item) (i j : Nat) : List Item :=
  (swapAnimatedRun l i j).1

section SwapLemmas

theorem length_listSwap {α : Type} (l : List α) (i j : Nat) :
    (listSwap l i j).length = l.length := by
  unfold listSwap
  cases hi : l[i]? <;> cases hj : l[j]? <;> simp

theorem length_swapInArray (l : List Item) (i j : Nat) :
    (swapInArray l i j).length = l.length := length_listSwap l i j

theorem length_swapAnimated (l : List Item) (i j : Nat) :
    (swapAnimated l i j).length = l.length := by
  unfold swapAnimated swapAnimatedRun
  by_cases h : i = j <;> simp [h, length_swapInArray]

/-- Pointwise description of `listSwap` on in-range indices. -/
theorem getD_listSwap {α : Type} [Inhabited α] (l : List α) (i j k : Nat)
    (hi : i < l.length) (hj : j < l.length) :
    (listSwap l i j).getD k default =
      if k = j then l.getD i default
      else if k = i then l.getD j default
      else l.getD k default := by
  unfold listSwap
  rw [List.getElem?_eq_getElem hi, List.getElem?_eq_getElem hj]
  simp only [List.getD_eq_getElem?_getD, List.getElem?_set, List.length_set]
  by_cases hjk : j = k <;> by_cases hik : i = k
  · subst hjk; subst hik
    simp [hi, List.getElem?_eq_getElem hi]
  · subst hjk
    simp [hj, hik, List.getElem?_eq_getElem hi, Ne.symm hik]
  · subst hik
    simp [hi, hjk, Ne.symm hjk, List.getElem?_eq_getElem hj]
  · simp [hjk, hik, Ne.symm hjk, Ne.symm hik]

theorem valAt_swapInArray (l : List Item) (i j k : Nat)
    (hi : i < l.length) (hj : j < l.length) :
    valAt (swapInArray l i j) k =
      if k = j then valAt l i else if k = i then valAt l j else valAt l k := by
  unfold valAt swapInArray
  rw [getD_listSwap l i j k hi hj]
  split_ifs <;> rfl

theorem cons_set_perm {α : Type} :
    ∀ (t : List α) (m : Nat) (x b : α), t[m]? = some b →
      (b :: t.set m x).Perm (x :: t) := by
  intro t
  induction t with
  | nil => intro m x b h; simp at h
  | cons y t ih =>
    intro m x b h
    cases m with
    | zero =>
      simp only [List.getElem?_cons_zero, Option.some.injEq] at h
      subst h
      simp only [List.set_cons_zero]
      exact List.Perm.swap x y t
    | succ m =>
      simp only [List.getElem?_cons_succ] at h
      simp only [List.set_cons_succ]
      exact (List.Perm.swap y b _).trans (((ih m x b h).cons y).trans (List.Perm.swap x y t))

/-- A swap is a permutation (for any indices, in range or not). -/
theorem listSwap_perm {α : Type} :
    ∀ (l : List α) (i j : Nat), (listSwap l i j).Perm l := by
  intro l
  induction l with
  | nil => intro i j; simp [listSwap]
  | cons x t ih =>
    intro i j
    unfold listSwap
    cases hi : (x :: t)[i]? with
    | none => exact List.Perm.refl _
    | some a =>
      cases hj : (x :: t)[j]? with
      | none => exact List.Perm.refl _
      | some b =>
        cases i with
        | zero =>
          simp only [List.getElem?_cons_zero, Option.some.injEq] at hi
          subst hi
          cases j with
          | zero =>
            simp only [List.getElem?_cons_zero, Option.some.injEq] at hj
            subst hj
            simp
          | succ m =>
            simp only [List.getElem?_cons_succ] at hj
            simp only [List.set_cons_zero, List.set_cons_succ]
            exact cons_set_perm t m x b hj
        | succ m =>
          simp only [List.getElem?_cons_succ] at hi
          cases j with
          | zero =>
            simp only [List.getElem?_cons_zero, Option.some.injEq] at hj
            subst hj
            simp only [List.set_cons_succ, List.set_cons_zero]
            exact cons_set_perm t m x a hi
          | succ k =>
            simp only [List.getElem?_cons_succ] at hj
            simp only [List.set_cons_succ]
            have h2 : listSwap t m k = (t.set m b).set k a := by
              unfold listSwap
              rw [hi, hj]
            rw [← h2]
            exact (ih m k).cons x

theorem swapInArray_perm (l : List Item) (i j : Nat) :
    (swapInArray l i j).Perm l := listSwap_perm l i j

theorem swapAnimated_perm (l : List Item) (i j : Nat) :
    (swapAnimated l i j).Perm l := by
  unfold swapAnimated swapAnimatedRun
  by_cases h : i = j
  · simp [h]
  · simpa [h] using swapInArray_perm l i j

theorem listSwap_cons_succ {α : Type} (a : α) (t : List α) (i j : Nat) :
    listSwap (a :: t) (i+1) (j+1) = a :: listSwap t i j := by
  unfold listSwap
  simp only [List.getElem?_cons_succ]
  cases hi : t[i]? <;> cases hj : t[j]? <;> simp

end SwapLemmas

/-- Replaying one emitted hook event on a state: `compare` does not touch the
array, a `swap` event stands for the `swapInArray` the source performs while
the hook is awaited. -/
def applyEv (l : List Item) (e : Ev) : List Item :=
  match e with
  | .comp _ _ => l
  | .swap i j => swapInArray l i j

theorem swapAnimatedRun_replay (l : List Item) (i j : Nat) :
    (swapAnimatedRun l i j).1 = List.foldl applyEv l (swapAnimatedRun l i j).2 := by
  unfold swapAnimatedRun
  by_cases h : i = j <;> simp [h, applyEv]

/-- The ascending half of `moveElementToIndex` (line 314):
`for (let k = fromIdx; k < toIdx; k++) await swapAnimated(k, k + 1)`.
`c` counts the remaining iterations (`toIdx - k`). -/
def moveUpRun : List Item → Nat → Nat → List Item × List Ev
  | l, _, 0 => (l, [])
  | l, k, c+1 =>
    let s := swapAnimatedRun l k (k+1)
    let r := moveUpRun s.1 (k+1) c
    (r.1, s.2 ++ r.2)

/-- The descending half of `moveElementToIndex` (line 316):
`for (let k = fromIdx; k > toIdx; k--) await swapAnimated(k, k - 1)`. -/
def moveDownRun : List Item → Nat → Nat → List Item × List Ev
  | l, _, 0 => (l, [])
  | l, k, c+1 =>
    let s := swapAnimatedRun l k (k-1)
    let r := moveDownRun s.1 (k-1) c
    (r.1, s.2 ++ r.2)

/-- `moveElementToIndex(fromIdx, toIdx)` (lines 311-318): no-op on equal
indices, otherwise a chain of adjacent `swapAnimated` calls. -/
def moveElementToIndexRun (l : List Item) (fromIdx toIdx : Nat) : List Item × List Ev :=
  if fromIdx = toIdx then (l, [])
  else if fromIdx < toIdx then moveUpRun l fromIdx (toIdx - fromIdx)
  else moveDownRun l fromIdx (fromIdx - toIdx)

/-- The state part of `moveElementToIndex`. -/
def moveElementToIndex (l : List Item) (fromIdx toIdx : Nat) : List Item :=
  (moveElementToIndexRun l fromIdx toIdx).1

section MoveLemmas

theorem insertIdx_getD_eraseIdx (l : List Item) :
    ∀ k : Nat, k < l.length →
      List.insertIdx k (l.getD k default) (l.eraseIdx k) = l := by
  induction l with
  | nil => intro k h; simp at h
  | cons a t ih =>
    intro k h
    cases k with
    | zero => simp [List.insertIdx_zero]
    | succ k =>
      simp only [List.length_cons, Nat.succ_lt_succ_iff] at h
      simp only [List.getD_cons_succ, List.eraseIdx_cons_succ, List.insertIdx_succ_cons]
      rw [ih k h]

theorem eraseIdx_succ_listSwap (l : List Item) :
    ∀ k : Nat, k + 1 < l.length →
      (listSwap l k (k+1)).eraseIdx (k+1) = l.eraseIdx k := by
  induction l with
  | nil => intro k h; simp at h
  | cons a t ih =>
    intro k h
    cases k with
    | zero =>
      match t, h with
      | b :: t, _ =>
        show (listSwap (a :: b :: t) 0 1).eraseIdx 1 = b :: t
        simp [listSwap]
    | succ k =>
      simp only [List.length_cons, Nat.succ_lt_succ_iff] at h
      rw [listSwap_cons_succ, List.eraseIdx_cons_succ, List.eraseIdx_cons_succ, ih k h]

theorem eraseIdx_listSwap_pred (l : List Item) :
    ∀ k : Nat, k + 1 < l.length →
      (listSwap l (k+1) k).eraseIdx k = l.eraseIdx (k+1) := by
  induction l with
  | nil => intro k h; simp at h
  | cons a t ih =>
    intro k h
    cases k with
    | zero =>
      match t, h with
      | b :: t, _ =>
        show (listSwap (a :: b :: t) 1 0).eraseIdx 0 = a :: t
        simp [listSwap]
    | succ k =>
      simp only [List.length_cons, Nat.succ_lt_succ_iff] at h
      rw [listSwap_cons_succ, List.eraseIdx_cons_succ, List.eraseIdx_cons_succ, ih k h]

/-- Ascending chains of adjacent swaps realize extract-and-insert. -/
theorem moveUpRun_fst (c : Nat) : ∀ (l : List Item) (k : Nat), k + c < l.length →
    (moveUpRun l k c).1 = List.insertIdx (k + c) (l.getD k default) (l.eraseIdx k) := by
  induction c with
  | zero =>
    intro l k h
    simpa [moveUpRun] using (insertIdx_getD_eraseIdx l k (by omega)).symm
  | succ c ih =>
    intro l k h
    have hk : ¬ (k = k + 1) := by omega
    have hs : (swapAnimatedRun l k (k+1)).1 = listSwap l k (k+1) := by
      simp [swapAnimatedRun, hk, swapInArray]
    have hlen : (k+1) + c < (listSwap l k (k+1)).length := by
      rw [length_listSwap]; omega
    have hgd : (listSwap l k (k+1)).getD (k+1) default = l.getD k default := by
      rw [getD_listSwap l k (k+1) (k+1) (by omega) (by omega)]
      simp
    simp only [moveUpRun, hs]
    rw [ih (listSwap l k (k+1)) (k+1) hlen, hgd,
      eraseIdx_succ_listSwap l k (by omega)]
    congr 1
    omega

/-- Descending chains of adjacent swaps realize extract-and-insert. -/
theorem moveDownRun_fst (c : Nat) : ∀ (l : List Item) (k : Nat), c ≤ k → k < l.length →
    (moveDownRun l k c).1 = List.insertIdx (k - c) (l.getD k default) (l.eraseIdx k) := by
  induction c with
  | zero =>
    intro l k _ h
    simpa [moveDownRun] using (insertIdx_getD_eraseIdx l k h).symm
  | succ c ih =>
    intro l k hc h
    obtain ⟨m, rfl⟩ : ∃ m, k = m + 1 := ⟨k - 1, by omega⟩
    have hk : ¬ (m + 1 = m) := by omega
    have hs : (swapAnimatedRun l (m+1) m).1 = listSwap l (m+1) m := by
      simp [swapAnimatedRun, hk, swapInArray]
    have hgd : (listSwap l (m+1) m).getD m default = l.getD (m+1) default := by
      rw [getD_listSwap l (m+1) m m (by omega) (by omega)]
      simp
    simp only [moveDownRun, Nat.add_sub_cancel, hs]
    rw [ih (listSwap l (m+1) m) m (by omega) (by rw [length_listSwap]; omega), hgd,
      eraseIdx_listSwap_pred l m (by omega)]
    congr 1
    omega

/-- The trace of an ascending move is exactly the chain
`swap(k, k+1), swap(k+1, k+2), …`. -/
theorem moveUpRun_snd (c : Nat) : ∀ (l : List Item) (k : Nat),
    (moveUpRun l k c).2 = (List.range c).map (fun d => Ev.swap (k + d) (k + d + 1)) := by
  induction c with
  | zero => intro l k; simp [moveUpRun]
  | succ c ih =>
    intro l k
    have hk : ¬ (k = k + 1) := by omega
    simp only [moveUpRun, swapAnimatedRun, hk, if_false, ih]
    rw [List.range_succ_eq_map, List.map_cons, List.map_map]
    simp only [List.cons_append, List.nil_append, List.singleton_append]
    congr 1
    apply List.map_congr_left
    intro d _
    simp [Function.comp]
    omega

/-- The trace of a descending move is exactly the chain
`swap(k, k-1), swap(k-1, k-2), …`. -/
theorem moveDownRun_snd (c : Nat) : ∀ (l : List Item) (k : Nat), c ≤ k →
    (moveDownRun l k c).2 = (List.range c).map (fun d => Ev.swap (k - d) (k - d - 1)) := by
  induction c with
  | zero => intro l k _; simp [moveDownRun]
  | succ c ih =>
    intro l k hc
    have hk : ¬ (k = k - 1) := by omega
    simp only [moveDownRun, swapAnimatedRun, hk, if_false, ih _ _ (by omega : c ≤ k - 1)]
    rw [List.range_succ_eq_map, List.map_cons, List.map_map]
    simp only [List.singleton_append]
    congr 1
    apply List.map_congr_left
    intro d _
    simp only [Function.comp]
    congr 1 <;> omega

theorem moveUpRun_replay (c : Nat) : ∀ (l : List Item) (k : Nat),
    (moveUpRun l k c).1 = List.foldl applyEv l (moveUpRun l k c).2 := by
  induction c with
  | zero => intro l k; simp [moveUpRun]
  | succ c ih =>
    intro l k
    simp only [moveUpRun, List.foldl_append, ← swapAnimatedRun_replay]
    exact ih _ _

theorem moveDownRun_replay (c : Nat) : ∀ (l : List Item) (k : Nat),
    (moveDownRun l k c).1 = List.foldl applyEv l (moveDownRun l k c).2 := by
  induction c with
  | zero => intro l k; simp [moveDownRun]
  | succ c ih =>
    intro l k
    simp only [moveDownRun, List.foldl_append, ← swapAnimatedRun_replay]
    exact ih _ _

theorem moveElementToIndexRun_replay (l : List Item) (f t : Nat) :
    (moveElementToIndexRun l f t).1 = List.foldl applyEv l (moveElementToIndexRun l f t).2 := by
  unfold moveElementToIndexRun
  split_ifs
  · simp
  · exact moveUpRun_replay _ _ _
  · exact moveDownRun_replay _ _ _

theorem moveUpRun_length (c : Nat) : ∀ (l : List Item) (k : Nat),
    (moveUpRun l k c).1.length = l.length := by
  induction c with
  | zero => intro l k; simp [moveUpRun]
  | succ c ih =>
    intro l k
    simp only [moveUpRun]
    rw [ih]
    unfold swapAnimatedRun
    by_cases h : k = k + 1
    · exact absurd h (by omega)
    · simp [h, swapInArray, length_listSwap]

theorem moveDownRun_length (c : Nat) : ∀ (l : List Item) (k : Nat),
    (moveDownRun l k c).1.length = l.length := by
  induction c with
  | zero => intro l k; simp [moveDownRun]
  | succ c ih =>
    intro l k
    simp only [moveDownRun]
    rw [ih]
    unfold swapAnimatedRun
    by_cases h : k = k - 1
    · rw [if_pos h]
    · simp [h, swapInArray, length_listSwap]

theorem moveElementToIndexRun_length (l : List Item) (f t : Nat) :
    (moveElementToIndexRun l f t).1.length = l.length := by
  unfold moveElementToIndexRun
  split_ifs
  · rfl
  · exact moveUpRun_length _ _ _
  · exact moveDownRun_length _ _ _

theorem moveUpRun_perm (c : Nat) : ∀ (l : List Item) (k : Nat),
    (moveUpRun l k c).1.Perm l := by
  induction c with
  | zero => intro l k; exact List.Perm.refl _
  | succ c ih =>
    intro l k
    simp only [moveUpRun]
    refine (ih _ _).trans ?_
    unfold swapAnimatedRun
    by_cases h : k = k + 1
    · exact absurd h (by omega)
    · simpa [h] using swapInArray_perm l k (k+1)

theorem moveDownRun_perm (c : Nat) : ∀ (l : List Item) (k : Nat),
    (moveDownRun l k c).1.Perm l := by
  induction c with
  | zero => intro l k; exact List.Perm.refl _
  | succ c ih =>
    intro l k
    simp only [moveDownRun]
    refine (ih _ _).trans ?_
    unfold swapAnimatedRun
    by_cases h : k = k - 1
    · rw [if_pos h]
    · simpa [h] using swapInArray_perm l k (k-1)

theorem moveElementToIndexRun_perm (l : List Item) (f t : Nat) :
    (moveElementToIndexRun l f t).1.Perm l := by
  unfold moveElementToIndexRun
  split_ifs
  · exact List.Perm.refl _
  · exact moveUpRun_perm _ _ _
  · exact moveDownRun_perm _ _ _

end MoveLemmas

/-! ## The algorithm library (lines 373-431)

Each `for` loop is embedded as recursion on the count of remaining
iterations.  Every function returns the final car array together with the
trace of awaited hook events, in the order the source awaits them. -/

/-- Inner loop of `bubbleSort` (lines 379-382):
`for (let j = 0; j < n - i - 1; j++) { await compare(j, j + 1); if
(cars[j].value > cars[j + 1].value) await swapAnimated(j, j + 1); }`.
`c` is the number of remaining iterations. -/
def bubbleInner : List Item → Nat → Nat → List Item × List Ev
  | l, _, 0 => (l, [])
  | l, j, c+1 =>
    if valAt l j > valAt l (j+1) then
      let s := swapAnimatedRun l j (j+1)
      let r := bubbleInner s.1 (j+1) c
      (r.1, .comp j (j+1) :: (s.2 ++ r.2))
    else
      let r := bubbleInner l (j+1) c
      (r.1, .comp j (j+1) :: r.2)

/-- Outer loop of `bubbleSort` (line 378); with `m` iterations remaining the
current pass performs `m` comparisons (`m = n - 1 - i`). -/
def bubbleOuter : List Item → Nat → List Item × List Ev
  | l, 0 => (l, [])
  | l, m+1 =>
    let p := bubbleInner l 0 (m+1)
    let r := bubbleOuter p.1 m
    (r.1, p.2 ++ r.2)

/-- `bubbleSort()` (lines 376-384), instrumented. -/
def bubbleSortRun (l : List Item) : List Item × List Ev :=
  bubbleOuter l (l.length - 1)

/-- The car array after `bubbleSort()` completes. -/
def bubbleSort (l : List Item) : List Item := (bubbleSortRun l).1

/-- Inner scan of `selectionSort` (line 390):
`for (let j = i + 1; j < n; j++) { await compare(minIdx, j); if
(cars[j].value < cars[minIdx].value) minIdx = j; }`.
Returns the final `minIdx`; the scan itself never mutates the array. -/
def selScan : List Item → Nat → Nat → Nat → Nat × List Ev
  | _, m, _, 0 => (m, [])
  | l, m, j, c+1 =>
    let m' := if valAt l j < valAt l m then j else m
    let r := selScan l m' (j+1) c
    (r.1, .comp m j :: r.2)

/-- Outer loop of `selectionSort` (lines 388-392): scan for the minimum of
`[i, n)`, then `if (minIdx !== i) await swapAnimated(i, minIdx)`. -/
def selOuter : List Item → Nat → Nat → List Item × List Ev
  | l, _, 0 => (l, [])
  | l, i, c+1 =>
    let sc := selScan l i (i+1) (l.length - i - 1)
    let sw := if sc.1 = i then (l, ([] : List Ev)) else swapAnimatedRun l i sc.1
    let r := selOuter sw.1 (i+1) c
    (r.1, sc.2 ++ sw.2 ++ r.2)

/-- `selectionSort()` (lines 386-393), instrumented. -/
def selectionSortRun (l : List Item) : List Item × List Ev :=
  selOuter l 0 (l.length - 1)

/-- The car array after `selectionSort()` completes. -/
def selectionSort (l : List Item) : List Item := (selectionSortRun l).1

/-- Scan of the Lomuto `partition` (line 398):
`for (let j = low; j < high; j++) { await compare(j, high); if
(cars[j].value <= pivot) { i++; await swapAnimated(i, j); } }`.
The source's `i` starts at `low - 1` and is incremented before each swap;
`b = i + 1` tracks it as a `Nat`.  Returns the final `b` (`= i + 1`). -/
def partLoop : List Item → Int → Nat → Nat → Nat → Nat → Nat × List Item × List Ev
  | l, _, b, _, _, 0 => (b, l, [])
  | l, pivot, b, j, high, c+1 =>
    if valAt l j ≤ pivot then
      let s := swapAnimatedRun l b j
      let r := partLoop s.1 pivot (b+1) (j+1) high c
      (r.1, r.2.1, .comp j high :: (s.2 ++ r.2.2))
    else
      let r := partLoop l pivot b (j+1) high c
      (r.1, r.2.1, .comp j high :: r.2.2)

/-- `partition(low, high)` (lines 396-400): pivot is `cars[high].value`;
after the scan, `await swapAnimated(i + 1, high)` and return `i + 1`. -/
def partitionRun (l : List Item) (low high : Nat) : Nat × List Item × List Ev :=
  let pivot := valAt l high
  let p := partLoop l pivot low low high (high - low)
  let s := swapAnimatedRun p.2.1 p.1 high
  (p.1, s.1, p.2.2 ++ s.2)

theorem partLoop_b_le (c : Nat) : ∀ (l : List Item) (pivot : Int) (b j high : Nat),
    b ≤ (partLoop l pivot b j high c).1 ∧ (partLoop l pivot b j high c).1 ≤ b + c := by
  induction c with
  | zero => intro l pivot b j high; simp [partLoop]
  | succ c ih =>
    intro l pivot b j high
    unfold partLoop
    by_cases h : valAt l j ≤ pivot
    · simp only [h, if_true]
      have := ih (swapAnimatedRun l b j).1 pivot (b+1) (j+1) high
      constructor <;> omega
    · simp only [h, if_false]
      have := ih l pivot b (j+1) high
      constructor <;> omega

theorem partitionRun_fst_ge (l : List Item) (low high : Nat) :
    low ≤ (partitionRun l low high).1 :=
  (partLoop_b_le (high - low) l (valAt l high) low low high).1

theorem partitionRun_fst_le (l : List Item) (low high : Nat) (h : low ≤ high) :
    (partitionRun l low high).1 ≤ high := by
  have := (partLoop_b_le (high - low) l (valAt l high) low low high).2
  simp only [partitionRun]
  omega

/-- `qs(low, high)` (line 401): recurse on `[low, p-1]` and `[p+1, high]`.
The source's `qs(0, -1)` base case coincides with truncated `Nat`
subtraction: both immediately fail the `low < high` test. -/
def qsRun (l : List Item) (low high : Nat) : List Item × List Ev :=
  if h : low < high then
    let pr := partitionRun l low high
    let r1 := qsRun pr.2.1 low (pr.1 - 1)
    let r2 := qsRun r1.1 (pr.1 + 1) high
    (r2.1, pr.2.2 ++ r1.2 ++ r2.2)
  else (l, [])
termination_by high - low
decreasing_by
  · have h1 := partitionRun_fst_ge l low high
    have h2 := partitionRun_fst_le l low high (le_of_lt h)
    omega
  · have h1 := partitionRun_fst_ge l low high
    have h2 := partitionRun_fst_le l low high (le_of_lt h)
    omega

/-- `quickSort()` (lines 395-403), instrumented. -/
def quickSortRun (l : List Item) : List Item × List Ev :=
  qsRun l 0 (l.length - 1)

/-- The car array after `quickSort()` completes. -/
def quickSort (l : List Item) : List Item := (quickSortRun l).1

/-- `cars.findIndex((c, idx) => idx >= left && c.value === val)`
(lines 413-427): index of the first car at or after `left` holding value
`v`; `none` embeds JavaScript's `-1`. -/
def findIdxFrom (l : List Item) (left : Nat) (v : Int) : Option Nat :=
  ((l.drop left).findIdx? (fun c => c.value = v)).map (· + left)

/-- The merge loop of `mergeSort` (lines 409-427), including the two drain
loops.  The two value snapshots are consumed structurally; `k` is the next
output slot.  A failed `findIndex` (JS `-1`) would make the source call
`moveElementToIndex(-1, k)` and throw; it is embedded as `none`. -/
def mergeLoop : List Int → List Int → Nat → Nat → List Item → Option (List Item × List Ev)
  | valL :: ls, valR :: rs, left, k, l =>
    let oL := findIdxFrom l left valL
    let oR := findIdxFrom l left valR
    let cmpEvs : List Ev :=
      match oL, oR with
      | some idxL, some idxR => [.comp idxL idxR]
      | _, _ => []
    if valL ≤ valR then
      match oL with
      | some c =>
        let mv := moveElementToIndexRun l c k
        match mergeLoop ls (valR :: rs) left (k+1) mv.1 with
        | some r => some (r.1, cmpEvs ++ mv.2 ++ r.2)
        | none => none
      | none => none
    else
      match oR with
      | some c =>
        let mv := moveElementToIndexRun l c k
        match mergeLoop (valL :: ls) rs left (k+1) mv.1 with
        | some r => some (r.1, cmpEvs ++ mv.2 ++ r.2)
        | none => none
      | none => none
  | valL :: ls, [], left, k, l =>
    match findIdxFrom l left valL with
    | some c =>
      let mv := moveElementToIndexRun l c k
      match mergeLoop ls [] left (k+1) mv.1 with
      | some r => some (r.1, mv.2 ++ r.2)
      | none => none
    | none => none
  | [], valR :: rs, left, k, l =>
    match findIdxFrom l left valR with
    | some c =>
      let mv := moveElementToIndexRun l c k
      match mergeLoop [] rs left (k+1) mv.1 with
      | some r => some (r.1, mv.2 ++ r.2)
      | none => none
    | none => none
  | [], [], _, _, l => some (l, [])
termination_by valsL valsR _ _ _ => valsL.length + valsR.length

/-- `merge(left, mid, right)` (lines 406-428): snapshot the values of
`cars.slice(left, mid + 1)` and `cars.slice(mid + 1, right + 1)`, then run
the merge loop with output slot starting at `left`. -/
def mergeRun (l : List Item) (left mid right : Nat) : Option (List Item × List Ev) :=
  let leftVals := ((l.drop left).take (mid + 1 - left)).map Item.value
  let rightVals := ((l.drop (mid + 1)).take (right - mid)).map Item.value
  mergeLoop leftVals rightVals left left l

/-- `ms(left, right)` (line 429): split at `mid = ⌊(left + right) / 2⌋`,
recurse on both halves, merge. -/
def msRun (l : List Item) (left right : Nat) : Option (List Item × List Ev) :=
  if left ≥ right then some (l, [])
  else
    match msRun l left ((left + right) / 2) with
    | none => none
    | some r1 =>
      match msRun r1.1 ((left + right) / 2 + 1) right with
      | none => none
      | some r2 =>
        match mergeRun r2.1 left ((left + right) / 2) right with
        | some r3 => some (r3.1, r1.2 ++ r2.2 ++ r3.2)
        | none => none
termination_by right - left
decreasing_by
  · omega
  · omega

/-- `mergeSort()` (lines 405-431), instrumented. -/
def mergeSortRun (l : List Item) : Option (List Item × List Ev) :=
  msRun l 0 (l.length - 1)

/-- The car array after `mergeSort()` completes (`none` = the run threw). -/
def mergeSort (l : List Item) : Option (List Item) :=
  (mergeSortRun l).map (·.1)

/-! ## Run controller and dataset generation (lines 349-357, 447-470) -/

/-- Controller state observable around the `btnStart` handler: the car
array, the `isSorting` / `isSorted` flags and the status line. -/
structure CtrlState where
  cars : List Item
  isSorting : Bool
  isSorted : Bool
  status : String
deriving DecidableEq, Repr

/-- The outcome of one `btnStart` click as observable by the caller.
`alreadyRunning` is the error outcome the specification envisions for a
concurrent start request; the handler never produces it. -/
inductive StartOutcome where
  | ignored
  | completed
  | failed
  | alreadyRunning
deriving DecidableEq, Repr

/-- The `btnStart` click handler (lines 447-470).  The selected algorithm
run — whose awaited hooks may throw — is abstracted as `run`: it maps the
car array to the array at the moment the run finished (or threw), paired
with `some message` when it threw.  The guard, flag updates, status texts
and `try/catch` mirror the source; DOM/audio effects are dropped. -/
def btnStartClick (s : CtrlState)
    (run : List Item → List Item × Option String) : CtrlState × StartOutcome :=
  if s.isSorting || s.cars.length == 0 then (s, .ignored)
  else
    match run s.cars with
    | (l', none) =>
      (⟨l', false, true, "Race Finished! Cars Sorted"⟩, .completed)
    | (l', some _) =>
      (⟨l', false, s.isSorted, "An error occurred. Please Reset and try again."⟩, .failed)

/-- The Fisher-Yates loop of `generateValues` (lines 352-355):
`for (let i = pool.length - 1; i > 0; i--) { const j = …; [pool[i],
pool[j]] = [pool[j], pool[i]]; }`.  `rand i` abstracts
`Math.floor(Math.random() * (i + 1))`. -/
def shuffleLoop (rand : Nat → Nat) : List Int → Nat → List Int
  | l, 0 => l
  | l, i+1 => shuffleLoop rand (listSwap l (i+1) (rand (i+1))) i

/-- The pool of `generateValues` (line 351):
`Array.from({ length: 90 }, (_, i) => i + 10)`, i.e. `[10, 11, …, 99]`. -/
def genPool : List Int := (List.range 90).map (fun i => ((i : Nat) : Int) + 10)

/-- `generateValues(n)` (lines 349-357): shuffle the pool `[10 … 99]` and
take the first `n` entries. -/
def generateValues (rand : Nat → Nat) (n : Nat) : List Int :=
  (shuffleLoop rand genPool (genPool.length - 1)).take n

/-! ## Claim theorems -/

/-- `moveElementToIndex` realizes logical extract-and-insert. -/
theorem moveElementToIndex_extract_insert (l : List Item) (f t : Nat)
    (hf : f < l.length) (ht : t < l.length) :
    moveElementToIndex l f t = List.insertIdx t (l.getD f default) (l.eraseIdx f) := by
  unfold moveElementToIndex moveElementToIndexRun
  by_cases h1 : f = t
  · subst h1
    rw [if_pos (rfl : f = f)]
    exact (insertIdx_getD_eraseIdx l f hf).symm
  · by_cases h2 : f < t
    · rw [if_neg h1, if_pos h2, moveUpRun_fst (t - f) l f (by omega)]
      congr 1
      omega
    · rw [if_neg h1, if_neg h2, moveDownRun_fst (f - t) l f (by omega) hf]
      congr 1
      omega

/-- C3: for in-bounds `from`, `to`, `relocate` (`moveElementToIndex`)
equals logical extract-and-insert of the item at `from` into slot `to`;
erasing the moved item from the result recovers erasing it from the input,
so the relative order of all other items is unchanged; it is a no-op when
`from = to`; and its hook trace is exactly the prescribed chain of adjacent
swaps: `swap(k, k+1)` ascending for `from < to`, `swap(k, k-1)` descending
for `from > to`. -/
theorem C3_relocate_extract_insert (l : List Item) (f t : Nat)
    (hf : f < l.length) (ht : t < l.length) :
    moveElementToIndex l f t = List.insertIdx t (l.getD f default) (l.eraseIdx f)
    ∧ (moveElementToIndex l f t).eraseIdx t = l.eraseIdx f
    ∧ (f = t → moveElementToIndex l f t = l)
    ∧ (f < t → (moveElementToIndexRun l f t).2
        = (List.range (t - f)).map (fun d => Ev.swap (f + d) (f + d + 1)))
    ∧ (t < f → (moveElementToIndexRun l f t).2
        = (List.range (f - t)).map (fun d => Ev.swap (f - d) (f - d - 1)))
    ∧ (f = t → (moveElementToIndexRun l f t).2 = []) := by
  have hmain := moveElementToIndex_extract_insert l f t hf ht
  refine ⟨hmain, ?_, ?_, ?_, ?_, ?_⟩
  · rw [hmain, List.eraseIdx_insertIdx]
  · intro h1
    subst h1
    simp [moveElementToIndex, moveElementToIndexRun]
  · intro h2
    unfold moveElementToIndexRun
    rw [if_neg (by omega), if_pos h2]
    exact moveUpRun_snd (t - f) l f
  · intro h2
    unfold moveElementToIndexRun
    rw [if_neg (by omega), if_neg (by omega)]
    exact moveDownRun_snd (f - t) l f (by omega)
  · intro h1
    simp [moveElementToIndexRun, h1]

/-- Witness for C3: relocating index 2 to index 0 in a 3-element array. -/
theorem C3_relocate_extract_insert_witness :
    moveElementToIndex [⟨0,1⟩, ⟨1,2⟩, ⟨2,3⟩] 2 0 = [⟨2,3⟩, ⟨0,1⟩, ⟨1,2⟩] := by
  have h := C3_relocate_extract_insert [⟨0,1⟩, ⟨1,2⟩, ⟨2,3⟩] 2 0 (by decide) (by decide)
  rw [h.1]
  decide

/-- C4 counterexample: the Sequence accepts a non-adjacent swap request:
`swapAnimated(0, 2)` (so `|i - j| = 2 ≠ 1`) performs the exchange and
changes the array, instead of failing with `InvalidOperation` and leaving
the Sequence unchanged. -/
theorem C4_counterexample :
    swapAnimated [⟨0,1⟩, ⟨1,2⟩, ⟨2,3⟩] 0 2 = [⟨2,3⟩, ⟨1,2⟩, ⟨0,1⟩]
    ∧ swapAnimated [⟨0,1⟩, ⟨1,2⟩, ⟨2,3⟩] 0 2 ≠ [⟨0,1⟩, ⟨1,2⟩, ⟨2,3⟩] := by
  decide

/-- C4 (amended): `swapAnimated(i, j)` carries out the exchange for every
pair of in-bounds indices, adjacent or not — `selectionSort` and
`quickSort` call it non-adjacently — exchanging exactly the entries at `i`
and `j` and leaving every other position unchanged; `i = j` is a no-op.
There is no rejection path. -/
theorem C4_swap_any_pair (l : List Item) (i j : Nat)
    (hi : i < l.length) (hj : j < l.length) :
    (swapAnimated l i j).getD i default = l.getD j default
    ∧ (swapAnimated l i j).getD j default = l.getD i default
    ∧ (∀ k, k ≠ i → k ≠ j → (swapAnimated l i j).getD k default = l.getD k default)
    ∧ (swapAnimated l i j).length = l.length := by
  refine ⟨?_, ?_, ?_, length_swapAnimated l i j⟩ <;>
    unfold swapAnimated swapAnimatedRun
  · by_cases h : i = j
    · subst h; simp
    · simp only [h, if_false, swapInArray]
      rw [getD_listSwap l i j i hi hj]
      simp [h]
  · by_cases h : i = j
    · subst h; simp
    · simp only [h, if_false, swapInArray]
      rw [getD_listSwap l i j j hi hj]
      simp
  · intro k hki hkj
    by_cases h : i = j
    · subst h; simp
    · simp only [h, if_false, swapInArray]
      rw [getD_listSwap l i j k hi hj]
      simp [hki, hkj]

/-- Witness for C4 (amended) at `i = 0`, `j = 2` on a 3-element array. -/
theorem C4_swap_any_pair_witness :
    (swapAnimated [⟨0,1⟩, ⟨1,2⟩, ⟨2,3⟩] 0 2).getD 0 default
      = ([⟨0,1⟩, ⟨1,2⟩, ⟨2,3⟩] : List Item).getD 2 default
    ∧ (swapAnimated [⟨0,1⟩, ⟨1,2⟩, ⟨2,3⟩] 0 2).getD 2 default
      = ([⟨0,1⟩, ⟨1,2⟩, ⟨2,3⟩] : List Item).getD 0 default := by
  have h := C4_swap_any_pair [⟨0,1⟩, ⟨1,2⟩, ⟨2,3⟩] 0 2 (by decide) (by decide)
  exact ⟨h.1, h.2.1⟩

/-- C5 counterexample: clicking Start while `isSorting` is set returns the
state unchanged with outcome `ignored` — the silent early return of line
448 — not the `alreadyRunning` failure the claim asserts. -/
theorem C5_counterexample :
    btnStartClick ⟨[⟨0, 5⟩], true, false, "Sorting in progress..."⟩ (fun l => (l, none))
      = (⟨[⟨0, 5⟩], true, false, "Sorting in progress..."⟩, StartOutcome.ignored)
    ∧ StartOutcome.ignored ≠ StartOutcome.alreadyRunning := by
  constructor
  · rfl
  · decide

/-- C5 (amended): a Start request while a prior run has not resolved is
silently ignored: the handler returns immediately, no error is raised, no
second run starts, and the prior run's Sequence and flags are untouched. -/
theorem C5_start_while_running_ignored (s : CtrlState)
    (run : List Item → List Item × Option String) (h : s.isSorting = true) :
    btnStartClick s run = (s, StartOutcome.ignored) := by
  unfold btnStartClick
  rw [h]
  simp

/-- Witness for C5 (amended) on a concrete busy state. -/
theorem C5_start_while_running_ignored_witness :
    btnStartClick ⟨[⟨1, 7⟩, ⟨2, 4⟩], true, false, "Sorting in progress..."⟩
        (fun l => (l.reverse, none))
      = (⟨[⟨1, 7⟩, ⟨2, 4⟩], true, false, "Sorting in progress..."⟩, StartOutcome.ignored) :=
  C5_start_while_running_ignored _ _ rfl

/-- C9: when the awaited run throws (`HookFailure`), the failure propagates
to the handler's `catch`: the outcome is `failed`, the `isSorting` flag is
reset (so a new run can start), the generic failure message is reported,
`isSorted` is not set, and the array is left exactly as the aborted run
left it — no resume is attempted. -/
theorem C9_hook_failure_aborts (s : CtrlState)
    (run : List Item → List Item × Option String) (l' : List Item) (msg : String)
    (hbusy : s.isSorting = false) (hne : s.cars.length ≠ 0)
    (hrun : run s.cars = (l', some msg)) :
    (btnStartClick s run).2 = StartOutcome.failed
    ∧ (btnStartClick s run).1.isSorting = false
    ∧ (btnStartClick s run).1.isSorted = s.isSorted
    ∧ (btnStartClick s run).1.status = "An error occurred. Please Reset and try again."
    ∧ (btnStartClick s run).1.cars = l' := by
  unfold btnStartClick
  rw [hbusy]
  simp only [Bool.false_or]
  rw [if_neg (by simpa using hne), hrun]
  simp

/-- Witness for C9: a singleton array with a run that throws at once. -/
theorem C9_hook_failure_aborts_witness :
    (btnStartClick ⟨[⟨0, 3⟩], false, false, "Ready"⟩
        (fun l => (l, some "HookFailure"))).2 = StartOutcome.failed
    ∧ (btnStartClick ⟨[⟨0, 3⟩], false, false, "Ready"⟩
        (fun l => (l, some "HookFailure"))).1.isSorting = false :=
  ⟨(C9_hook_failure_aborts _ _ [⟨0, 3⟩] "HookFailure" rfl (by decide) rfl).1,
   (C9_hook_failure_aborts _ _ [⟨0, 3⟩] "HookFailure" rfl (by decide) rfl).2.1⟩

theorem shuffleLoop_perm (rand : Nat → Nat) : ∀ (i : Nat) (l : List Int),
    (shuffleLoop rand l i).Perm l := by
  intro i
  induction i with
  | zero => intro l; exact List.Perm.refl _
  | succ i ih => intro l; exact (ih _).trans (listSwap_perm _ _ _)

/-- C10: for `1 ≤ n ≤ 90`, `generateValues(n)` returns exactly `n`
pairwise-distinct integers, each in `10 … 99` — the shuffled pool is a
permutation of `[10 … 99]` for every random source, and distinctness
survives `take`. -/
theorem C10_generateValues (rand : Nat → Nat) (n : Nat)
    (h1 : 1 ≤ n) (h2 : n ≤ 90) :
    (generateValues rand n).length = n
    ∧ (generateValues rand n).Nodup
    ∧ ∀ v ∈ generateValues rand n, 10 ≤ v ∧ v ≤ 99 := by
  unfold generateValues
  have hperm := shuffleLoop_perm rand (genPool.length - 1) genPool
  have hpoollen : genPool.length = 90 := by simp [genPool]
  have hpoolnodup : genPool.Nodup := by
    refine List.Nodup.map ?_ (List.nodup_range 90)
    intro a b hab
    have : (a : Int) = b := by simpa using hab
    omega
  have hlen : (shuffleLoop rand genPool (genPool.length - 1)).length = 90 := by
    rw [hperm.length_eq, hpoollen]
  have hnodup : (shuffleLoop rand genPool (genPool.length - 1)).Nodup :=
    hperm.nodup_iff.mpr hpoolnodup
  refine ⟨?_, ?_, ?_⟩
  · rw [List.length_take, hlen]
    omega
  · exact (List.take_sublist n _).nodup hnodup
  · intro v hv
    have hv' : v ∈ genPool := hperm.subset ((List.take_sublist n _).subset hv)
    simp only [genPool, List.mem_map, List.mem_range] at hv'
    obtain ⟨i, hi, rfl⟩ := hv'
    omega

/-- Witness for C10 with the identity-zero random source and `n = 3`. -/
theorem C10_generateValues_witness :
    (generateValues (fun _ => 0) 3).length = 3
    ∧ (generateValues (fun _ => 0) 3).Nodup
    ∧ ∀ v ∈ generateValues (fun _ => 0) 3, 10 ≤ v ∧ v ≤ 99 :=
  C10_generateValues (fun _ => 0) 3 (by decide) (by decide)

/-- Whether a hook event is a `compare` call. -/
def Ev.isComp : Ev → Bool
  | .comp _ _ => true
  | .swap _ _ => false

theorem countP_swapAnimatedRun (l : List Item) (i j : Nat) :
    (swapAnimatedRun l i j).2.countP Ev.isComp = 0 := by
  unfold swapAnimatedRun
  by_cases h : i = j <;> simp [h, List.countP_cons, Ev.isComp]

theorem bubbleInner_compCount (c : Nat) : ∀ (l : List Item) (j : Nat),
    (bubbleInner l j c).2.countP Ev.isComp = c := by
  induction c with
  | zero => intro l j; simp [bubbleInner]
  | succ c ih =>
    intro l j
    unfold bubbleInner
    by_cases h : valAt l j > valAt l (j+1)
    · simp only [h, if_true, List.countP_cons, List.countP_append]
      rw [ih, countP_swapAnimatedRun]
      simp [Ev.isComp]
    · simp only [h, if_false, List.countP_cons]
      rw [ih]
      simp [Ev.isComp]

theorem bubbleOuter_compCount : ∀ (m : Nat) (l : List Item),
    2 * ((bubbleOuter l m).2.countP Ev.isComp) = m * (m + 1) := by
  intro m
  induction m with
  | zero => intro l; simp [bubbleOuter]
  | succ m ih =>
    intro l
    unfold bubbleOuter
    simp only [List.countP_append]
    rw [bubbleInner_compCount]
    have h2 := ih (bubbleInner l 0 (m+1)).1
    ring_nf
    ring_nf at h2
    omega

theorem selScan_compCount (c : Nat) : ∀ (l : List Item) (m j : Nat),
    (selScan l m j c).2.countP Ev.isComp = c := by
  induction c with
  | zero => intro l m j; simp [selScan]
  | succ c ih =>
    intro l m j
    unfold selScan
    simp only [List.countP_cons]
    rw [ih]
    simp [Ev.isComp]

theorem selOuter_length : ∀ (c : Nat) (l : List Item) (i : Nat),
    (selOuter l i c).1.length = l.length := by
  intro c
  induction c with
  | zero => intro l i; simp [selOuter]
  | succ c ih =>
    intro l i
    unfold selOuter
    rw [ih]
    by_cases h : (selScan l i (i+1) (l.length - i - 1)).1 = i
    · rw [if_pos h]
    · rw [if_neg h]
      exact length_swapAnimated l i _

theorem selOuter_compCount : ∀ (c : Nat) (l : List Item) (i : Nat),
    i + c + 1 = l.length →
    2 * ((selOuter l i c).2.countP Ev.isComp) = c * (c + 1) := by
  intro c
  induction c with
  | zero => intro l i _; simp [selOuter]
  | succ c ih =>
    intro l i hlen
    unfold selOuter
    simp only [List.countP_append]
    rw [selScan_compCount]
    have hswlen : (if (selScan l i (i+1) (l.length - i - 1)).1 = i
        then (l, ([] : List Ev))
        else swapAnimatedRun l i (selScan l i (i+1) (l.length - i - 1)).1).1.length
        = l.length := by
      by_cases h : (selScan l i (i+1) (l.length - i - 1)).1 = i
      · rw [if_pos h]
      · rw [if_neg h]
        exact length_swapAnimated l i _
    have hswcount : (if (selScan l i (i+1) (l.length - i - 1)).1 = i
        then (l, ([] : List Ev))
        else swapAnimatedRun l i (selScan l i (i+1) (l.length - i - 1)).1).2.countP Ev.isComp
        = 0 := by
      by_cases h : (selScan l i (i+1) (l.length - i - 1)).1 = i
      · rw [if_pos h]
        simp
      · rw [if_neg h]
        exact countP_swapAnimatedRun l i _
    rw [hswcount]
    have h3 := ih _ (i+1) (by rw [hswlen]; omega)
    ring_nf
    ring_nf at h3
    omega

/-- C7: on every dataset — of any size `n` and in any initial order —
Bubble Sort issues exactly `n(n-1)/2` `compare` calls, and so does
Selection Sort.  The counts depend only on `n = l.length`, hence not on the
initial order of the values. -/
theorem C7_compare_counts (l : List Item) :
    (bubbleSortRun l).2.countP Ev.isComp = l.length * (l.length - 1) / 2
    ∧ (selectionSortRun l).2.countP Ev.isComp = l.length * (l.length - 1) / 2 := by
  constructor
  · unfold bubbleSortRun
    rcases Nat.eq_zero_or_pos l.length with h0 | h0
    · rw [h0]
      simp [bubbleOuter]
    · have h := bubbleOuter_compCount (l.length - 1) l
      rw [show l.length - 1 + 1 = l.length from by omega] at h
      rw [Nat.mul_comm l.length (l.length - 1)]
      omega
  · unfold selectionSortRun
    rcases Nat.eq_zero_or_pos l.length with h0 | h0
    · rw [h0]
      simp [selOuter]
    · have h := selOuter_compCount (l.length - 1) l 0 (by omega)
      rw [show l.length - 1 + 1 = l.length from by omega] at h
      rw [Nat.mul_comm l.length (l.length - 1)]
      omega

/-- C6 counterexample: Quick Sort on values `[4, 2, 2]`.  The second hook
event is `compare(1, 2)`; no swap has happened before it, so the compared
positions hold the equal values `2` and `2`.  The very next event is the
swap this comparison triggers (`value[j] <= pivot` fires on equality): an
equal-valued comparison does trigger a swap. -/
theorem C6_counterexample :
    (quickSortRun [⟨0,4⟩, ⟨1,2⟩, ⟨2,2⟩]).2
      = [.comp 0 2, .comp 1 2, .swap 0 1, .swap 1 2]
    ∧ valAt [⟨0,4⟩, ⟨1,2⟩, ⟨2,2⟩] 1 = valAt [⟨0,4⟩, ⟨1,2⟩, ⟨2,2⟩] 2 := by
  constructor
  · simp [quickSortRun, qsRun, partitionRun, partLoop, swapAnimatedRun, swapInArray,
      listSwap, valAt]
  · rfl

/-- C6 (amended): in Bubble Sort an equal-valued comparison never triggers
a swap — the iteration adds only its compare event and leaves the array
unchanged; in Selection Sort a comparison only maintains the
running-minimum index, and equal values leave it unchanged (the eventual
`swap(i, minIdx)` is a consequence of earlier strict comparisons).  In
Quick Sort's partition, however, the guard is `value[j] <= pivot`, so a
comparison between equal values does trigger a swap. -/
theorem C6_equal_compare_no_swap :
    (∀ (l : List Item) (j c : Nat), valAt l j = valAt l (j+1) →
      bubbleInner l j (c+1)
        = ((bubbleInner l (j+1) c).1, .comp j (j+1) :: (bubbleInner l (j+1) c).2))
    ∧ (∀ (l : List Item) (m j c : Nat), valAt l j = valAt l m →
      selScan l m j (c+1) = ((selScan l m (j+1) c).1, .comp m j :: (selScan l m (j+1) c).2)) := by
  constructor
  · intro l j c h
    conv_lhs => rw [bubbleInner]
    rw [if_neg (by omega)]
  · intro l m j c h
    conv_lhs => rw [selScan]
    rw [if_neg (by omega)]

/-- Witness for C6 (amended) on two equal-valued items. -/
theorem C6_equal_compare_no_swap_witness :
    bubbleInner [⟨0,2⟩, ⟨1,2⟩] 0 1
      = ((bubbleInner [⟨0,2⟩, ⟨1,2⟩] 1 0).1,
          .comp 0 1 :: (bubbleInner [⟨0,2⟩, ⟨1,2⟩] 1 0).2)
    ∧ selScan [⟨0,2⟩, ⟨1,2⟩] 0 1 1
      = ((selScan [⟨0,2⟩, ⟨1,2⟩] 0 2 0).1,
          .comp 0 1 :: (selScan [⟨0,2⟩, ⟨1,2⟩] 0 2 0).2) :=
  ⟨C6_equal_compare_no_swap.1 [⟨0,2⟩, ⟨1,2⟩] 0 0 (by decide),
   C6_equal_compare_no_swap.2 [⟨0,2⟩, ⟨1,2⟩] 0 1 0 (by decide)⟩

theorem applyEv_perm (l : List Item) (e : Ev) : (applyEv l e).Perm l := by
  cases e with
  | comp i j => exact List.Perm.refl _
  | swap i j => exact swapInArray_perm l i j

/-- Every state reached by replaying a hook trace is a permutation of the
starting state. -/
theorem scanl_applyEv_perm :
    ∀ (t : List Ev) (l s : List Item), s ∈ List.scanl applyEv l t → s.Perm l := by
  intro t
  induction t with
  | nil =>
    intro l s hs
    simp only [List.scanl_nil, List.mem_singleton] at hs
    subst hs
    exact List.Perm.refl _
  | cons e t ih =>
    intro l s hs
    simp only [List.scanl_cons, List.singleton_append, List.mem_cons] at hs
    rcases hs with rfl | hs
    · exact List.Perm.refl _
    · exact (ih (applyEv l e) s hs).trans (applyEv_perm l e)

theorem bubbleInner_replay (c : Nat) : ∀ (l : List Item) (j : Nat),
    (bubbleInner l j c).1 = List.foldl applyEv l (bubbleInner l j c).2 := by
  induction c with
  | zero => intro l j; simp [bubbleInner]
  | succ c ih =>
    intro l j
    unfold bubbleInner
    by_cases h : valAt l j > valAt l (j+1)
    · simp only [h, if_true, List.foldl_cons, List.foldl_append]
      show _ = List.foldl applyEv (List.foldl applyEv (applyEv l (.comp j (j+1))) _) _
      rw [show applyEv l (.comp j (j+1)) = l from rfl, ← swapAnimatedRun_replay]
      exact ih _ _
    · simp only [h, if_false, List.foldl_cons]
      rw [show applyEv l (.comp j (j+1)) = l from rfl]
      exact ih _ _

theorem bubbleOuter_replay : ∀ (m : Nat) (l : List Item),
    (bubbleOuter l m).1 = List.foldl applyEv l (bubbleOuter l m).2 := by
  intro m
  induction m with
  | zero => intro l; simp [bubbleOuter]
  | succ m ih =>
    intro l
    unfold bubbleOuter
    simp only [List.foldl_append]
    rw [← bubbleInner_replay]
    exact ih _

theorem selScan_foldl (c : Nat) : ∀ (l : List Item) (m j : Nat),
    List.foldl applyEv l (selScan l m j c).2 = l := by
  induction c with
  | zero => intro l m j; simp [selScan]
  | succ c ih =>
    intro l m j
    unfold selScan
    simp only [List.foldl_cons]
    rw [show applyEv l (.comp m j) = l from rfl]
    exact ih _ _ _

theorem selOuter_replay : ∀ (c : Nat) (l : List Item) (i : Nat),
    (selOuter l i c).1 = List.foldl applyEv l (selOuter l i c).2 := by
  intro c
  induction c with
  | zero => intro l i; simp [selOuter]
  | succ c ih =>
    intro l i
    unfold selOuter
    simp only [List.foldl_append]
    rw [selScan_foldl]
    by_cases h : (selScan l i (i+1) (l.length - i - 1)).1 = i
    · rw [if_pos h]
      exact ih _ _
    · rw [if_neg h, ← swapAnimatedRun_replay]
      exact ih _ _

theorem partLoop_replay (c : Nat) : ∀ (l : List Item) (pivot : Int) (b j high : Nat),
    (partLoop l pivot b j high c).2.1
      = List.foldl applyEv l (partLoop l pivot b j high c).2.2 := by
  induction c with
  | zero => intro l pivot b j high; simp [partLoop]
  | succ c ih =>
    intro l pivot b j high
    unfold partLoop
    by_cases h : valAt l j ≤ pivot
    · simp only [h, if_true, List.foldl_cons, List.foldl_append]
      rw [show applyEv l (.comp j high) = l from rfl, ← swapAnimatedRun_replay]
      exact ih _ _ _ _ _
    · simp only [h, if_false, List.foldl_cons]
      rw [show applyEv l (.comp j high) = l from rfl]
      exact ih _ _ _ _ _

theorem partitionRun_replay (l : List Item) (low high : Nat) :
    (partitionRun l low high).2.1
      = List.foldl applyEv l (partitionRun l low high).2.2 := by
  unfold partitionRun
  simp only [List.foldl_append]
  rw [← partLoop_replay, ← swapAnimatedRun_replay]

theorem qsRun_replay (n : Nat) : ∀ (l : List Item) (low high : Nat), high - low ≤ n →
    (qsRun l low high).1 = List.foldl applyEv l (qsRun l low high).2 := by
  induction n with
  | zero =>
    intro l low high hle
    rw [qsRun]
    rw [dif_neg (by omega)]
    rfl
  | succ n ih =>
    intro l low high hle
    rw [qsRun]
    by_cases h : low < high
    · rw [dif_pos h]
      simp only [List.foldl_append]
      have hp1 := partitionRun_fst_ge l low high
      have hp2 := partitionRun_fst_le l low high (le_of_lt h)
      rw [← partitionRun_replay]
      rw [← ih _ low ((partitionRun l low high).1 - 1) (by omega)]
      rw [← ih _ ((partitionRun l low high).1 + 1) high (by omega)]
    · rw [dif_neg h]
      rfl

theorem mergeLoop_replay (n : Nat) : ∀ (valsL valsR : List Int) (left k : Nat)
    (l : List Item) (r : List Item × List Ev),
    valsL.length + valsR.length ≤ n →
    mergeLoop valsL valsR left k l = some r →
    r.1 = List.foldl applyEv l r.2 := by
  induction n with
  | zero =>
    intro valsL valsR left k l r hlen heq
    cases valsL with
    | cons v ls => simp at hlen
    | nil =>
      cases valsR with
      | cons v rs => simp at hlen
      | nil =>
        simp only [mergeLoop, Option.some.injEq] at heq
        subst heq
        rfl
  | succ n ih =>
    intro valsL valsR left k l r hlen heq
    cases valsL with
    | nil =>
      cases valsR with
      | nil =>
        simp only [mergeLoop, Option.some.injEq] at heq
        subst heq
        rfl
      | cons valR rs =>
        cases hf : findIdxFrom l left valR with
        | none => simp only [mergeLoop, hf] at heq; exact Option.noConfusion heq
        | some c =>
          cases hm : mergeLoop [] rs left (k+1) (moveElementToIndexRun l c k).1 with
          | none => simp only [mergeLoop, hf, hm] at heq; exact Option.noConfusion heq
          | some r' =>
            simp only [mergeLoop, hf, hm, Option.some.injEq] at heq
            subst heq
            have hih := ih [] rs left (k+1) (moveElementToIndexRun l c k).1 r'
              (by simp at hlen ⊢; omega) hm
            simp only [List.foldl_append]
            rw [← moveElementToIndexRun_replay]
            exact hih
    | cons valL ls =>
      cases valsR with
      | nil =>
        cases hf : findIdxFrom l left valL with
        | none => simp only [mergeLoop, hf] at heq; exact Option.noConfusion heq
        | some c =>
          cases hm : mergeLoop ls [] left (k+1) (moveElementToIndexRun l c k).1 with
          | none => simp only [mergeLoop, hf, hm] at heq; exact Option.noConfusion heq
          | some r' =>
            simp only [mergeLoop, hf, hm, Option.some.injEq] at heq
            subst heq
            have hih := ih ls [] left (k+1) (moveElementToIndexRun l c k).1 r'
              (by simp at hlen ⊢; omega) hm
            simp only [List.foldl_append]
            rw [← moveElementToIndexRun_replay]
            exact hih
      | cons valR rs =>
        by_cases hcmp : valL ≤ valR
        · cases hfL : findIdxFrom l left valL with
          | none => simp only [mergeLoop, hfL, hcmp, if_true] at heq; exact Option.noConfusion heq
          | some cL =>
            cases hm : mergeLoop ls (valR :: rs) left (k+1) (moveElementToIndexRun l cL k).1 with
            | none => simp only [mergeLoop, hfL, hm, hcmp, if_true] at heq; exact Option.noConfusion heq
            | some r' =>
              have hih := ih ls (valR :: rs) left (k+1) (moveElementToIndexRun l cL k).1 r'
                (by simp at hlen ⊢; omega) hm
              cases hfR : findIdxFrom l left valR with
              | none =>
                simp only [mergeLoop, hfL, hfR, hm, hcmp, if_true, Option.some.injEq] at heq
                subst heq
                simp only [List.foldl_append, List.foldl_nil]
                rw [← moveElementToIndexRun_replay]
                exact hih
              | some cR =>
                simp only [mergeLoop, hfL, hfR, hm, hcmp, if_true, Option.some.injEq] at heq
                subst heq
                simp only [List.foldl_append, List.foldl_cons, List.foldl_nil]
                rw [show applyEv l (.comp cL cR) = l from rfl, ← moveElementToIndexRun_replay]
                exact hih
        · cases hfR : findIdxFrom l left valR with
          | none => simp only [mergeLoop, hfR, hcmp, if_false] at heq; exact Option.noConfusion heq
          | some cR =>
            cases hm : mergeLoop (valL :: ls) rs left (k+1) (moveElementToIndexRun l cR k).1 with
            | none => simp only [mergeLoop, hfR, hm, hcmp, if_false] at heq; exact Option.noConfusion heq
            | some r' =>
              have hih := ih (valL :: ls) rs left (k+1) (moveElementToIndexRun l cR k).1 r'
                (by simp at hlen ⊢; omega) hm
              cases hfL : findIdxFrom l left valL with
              | none =>
                simp only [mergeLoop, hfL, hfR, hm, hcmp, if_false, Option.some.injEq] at heq
                subst heq
                simp only [List.foldl_append, List.foldl_nil]
                rw [← moveElementToIndexRun_replay]
                exact hih
              | some cL =>
                simp only [mergeLoop, hfL, hfR, hm, hcmp, if_false, Option.some.injEq] at heq
                subst heq
                simp only [List.foldl_append, List.foldl_cons, List.foldl_nil]
                rw [show applyEv l (.comp cL cR) = l from rfl, ← moveElementToIndexRun_replay]
                exact hih

theorem mergeRun_replay (l : List Item) (left mid right : Nat) (r : List Item × List Ev)
    (h : mergeRun l left mid right = some r) :
    r.1 = List.foldl applyEv l r.2 := by
  unfold mergeRun at h
  exact mergeLoop_replay _ _ _ _ _ _ _ (le_refl _) h

theorem msRun_replay (n : Nat) : ∀ (l : List Item) (left right : Nat), right - left ≤ n →
    ∀ r, msRun l left right = some r → r.1 = List.foldl applyEv l r.2 := by
  induction n with
  | zero =>
    intro l left right hle r heq
    rw [msRun, if_pos (by omega : left ≥ right)] at heq
    simp only [Option.some.injEq] at heq
    subst heq
    rfl
  | succ n ih =>
    intro l left right hle r heq
    by_cases hlr : left ≥ right
    · rw [msRun, if_pos hlr] at heq
      simp only [Option.some.injEq] at heq
      subst heq
      rfl
    · have hmid1 : (left + right) / 2 - left ≤ n := by omega
      have hmid2 : right - ((left + right) / 2 + 1) ≤ n := by omega
      cases h1 : msRun l left ((left + right) / 2) with
      | none => rw [msRun, if_neg hlr] at heq; rw [h1] at heq; exact Option.noConfusion heq
      | some r1 =>
        cases h2 : msRun r1.1 ((left + right) / 2 + 1) right with
        | none =>
          rw [msRun, if_neg hlr] at heq
          rw [h1] at heq
          simp only [] at heq
          rw [h2] at heq
          exact Option.noConfusion heq
        | some r2 =>
          cases h3 : mergeRun r2.1 left ((left + right) / 2) right with
          | none =>
            rw [msRun, if_neg hlr] at heq
            rw [h1] at heq
            simp only [] at heq
            rw [h2] at heq
            simp only [] at heq
            rw [h3] at heq
            exact Option.noConfusion heq
          | some r3 =>
            rw [msRun, if_neg hlr] at heq
            rw [h1] at heq
            simp only [] at heq
            rw [h2] at heq
            simp only [] at heq
            rw [h3] at heq
            simp only [Option.some.injEq] at heq
            subst heq
            simp only [List.foldl_append]
            rw [← ih l left ((left + right) / 2) hmid1 r1 h1]
            rw [← ih r1.1 ((left + right) / 2 + 1) right hmid2 r2 h2]
            exact mergeRun_replay r2.1 left ((left + right) / 2) right r3 h3

/-- C8: throughout every run of every algorithm the Sequence remains a
permutation of the initial items.  Each algorithm's final array is the
replay of its emitted hook trace (all mutation flows through
`swapInArray`), and every intermediate state — the state after each
individual `compare` / `swapAnimated` step, including every adjacent swap
inside the merge procedure's relocations — is a permutation of the initial
array.  Permutation of the `Item`s means every `id` keeps exactly its one
occurrence and the value attached to an `id` is never mutated; only
positions change. -/
theorem C8_permutation_invariant (l : List Item) :
    ((bubbleSortRun l).1 = List.foldl applyEv l (bubbleSortRun l).2
      ∧ ∀ s ∈ List.scanl applyEv l (bubbleSortRun l).2, s.Perm l)
    ∧ ((selectionSortRun l).1 = List.foldl applyEv l (selectionSortRun l).2
      ∧ ∀ s ∈ List.scanl applyEv l (selectionSortRun l).2, s.Perm l)
    ∧ ((quickSortRun l).1 = List.foldl applyEv l (quickSortRun l).2
      ∧ ∀ s ∈ List.scanl applyEv l (quickSortRun l).2, s.Perm l)
    ∧ (∀ r, mergeSortRun l = some r →
        r.1 = List.foldl applyEv l r.2 ∧ ∀ s ∈ List.scanl applyEv l r.2, s.Perm l) :=
  ⟨⟨bubbleOuter_replay _ l, fun s hs => scanl_applyEv_perm _ l s hs⟩,
   ⟨selOuter_replay _ l 0, fun s hs => scanl_applyEv_perm _ l s hs⟩,
   ⟨qsRun_replay (l.length - 1) l 0 (l.length - 1) (by omega),
    fun s hs => scanl_applyEv_perm _ l s hs⟩,
   fun r hr =>
    ⟨msRun_replay (l.length - 1) l 0 (l.length - 1) (by omega) r hr,
     fun s hs => scanl_applyEv_perm _ l s hs⟩⟩

/-- Witness for C8's merge conjunct on a concrete two-element array. -/
theorem C8_permutation_invariant_witness :
    ∃ r, mergeSortRun [⟨0,5⟩, ⟨1,5⟩] = some r
      ∧ ∀ s ∈ List.scanl applyEv [⟨0,5⟩, ⟨1,5⟩] r.2, s.Perm [⟨0,5⟩, ⟨1,5⟩] := by
  have hsome : (mergeSortRun [⟨0,5⟩, ⟨1,5⟩]).isSome := by
    simp [mergeSortRun, msRun, mergeRun, mergeLoop, findIdxFrom, moveElementToIndexRun,
      moveUpRun, moveDownRun, swapAnimatedRun, swapInArray, listSwap]
  obtain ⟨r, hr⟩ := Option.isSome_iff_exists.mp hsome
  exact ⟨r, hr, ((C8_permutation_invariant [⟨0,5⟩, ⟨1,5⟩]).2.2.2 r hr).2⟩

theorem sorted_map_value_of_valAt (l : List Item)
    (h : ∀ a b, a ≤ b → b < l.length → valAt l a ≤ valAt l b) :
    List.Sorted (· ≤ ·) (l.map Item.value) := by
  rw [List.Sorted, List.pairwise_iff_getElem]
  intro i j hi hj hij
  simp only [List.getElem_map]
  have h2 := h i j (le_of_lt hij) (by simpa using hj)
  unfold valAt at h2
  rwa [List.getD_eq_getElem l default (by simpa using hi),
    List.getD_eq_getElem l default (by simpa using hj)] at h2

theorem valAt_swapAnimated (l : List Item) (i j k : Nat)
    (hi : i < l.length) (hj : j < l.length) :
    valAt (swapAnimated l i j) k =
      if k = j then valAt l i else if k = i then valAt l j else valAt l k := by
  unfold swapAnimated swapAnimatedRun
  by_cases h : i = j
  · subst h
    simp only [if_pos rfl]
    split_ifs with h1 h2 <;> simp_all
  · simp only [h, if_false]
    exact valAt_swapInArray l i j k hi hj

theorem bubbleInner_length (c : Nat) : ∀ (l : List Item) (j : Nat),
    (bubbleInner l j c).1.length = l.length := by
  induction c with
  | zero => intro l j; simp [bubbleInner]
  | succ c ih =>
    intro l j
    unfold bubbleInner
    by_cases h : valAt l j > valAt l (j+1)
    · simp only [h, if_true]
      rw [ih]
      exact length_swapAnimated l j (j+1)
    · simp only [h, if_false]
      exact ih l (j+1)

theorem bubbleInner_untouched (c : Nat) : ∀ (l : List Item) (j k : Nat),
    j + c < l.length → (k < j ∨ j + c < k) →
    valAt (bubbleInner l j c).1 k = valAt l k := by
  induction c with
  | zero => intro l j k _ _; rfl
  | succ c ih =>
    intro l j k hlen hk
    unfold bubbleInner
    by_cases h : valAt l j > valAt l (j+1)
    · simp only [h, if_true]
      have hs : (swapAnimatedRun l j (j+1)).1 = swapAnimated l j (j+1) := rfl
      rw [hs, ih (swapAnimated l j (j+1)) (j+1) k
        (by rw [length_swapAnimated]; omega) (by omega)]
      rw [valAt_swapAnimated l j (j+1) k (by omega) (by omega)]
      rw [if_neg (by omega), if_neg (by omega)]
    · simp only [h, if_false]
      exact ih l (j+1) k (by omega) (by omega)

theorem bubbleInner_bounded (c : Nat) : ∀ (l : List Item) (j : Nat) (B : Int),
    j + c < l.length →
    (∀ a, j ≤ a → a ≤ j + c → valAt l a ≤ B) →
    (∀ a, j ≤ a → a ≤ j + c → valAt (bubbleInner l j c).1 a ≤ B) := by
  induction c with
  | zero => intro l j B _ hb a ha1 ha2; exact hb a ha1 ha2
  | succ c ih =>
    intro l j B hlen hb a ha1 ha2
    unfold bubbleInner
    by_cases h : valAt l j > valAt l (j+1)
    · simp only [h, if_true]
      have hs : (swapAnimatedRun l j (j+1)).1 = swapAnimated l j (j+1) := rfl
      rw [hs]
      have hb1 : ∀ a, j ≤ a → a ≤ j + (c+1) → valAt (swapAnimated l j (j+1)) a ≤ B := by
        intro a ha1 ha2
        rw [valAt_swapAnimated l j (j+1) a (by omega) (by omega)]
        split_ifs with h1 h2
        · exact hb j (le_refl j) (by omega)
        · exact hb (j+1) (by omega) (by omega)
        · exact hb a ha1 ha2
      by_cases haj : a = j
      · subst haj
        rw [bubbleInner_untouched c _ (a+1) a
          (by rw [length_swapAnimated]; omega) (by omega)]
        exact hb1 a (le_refl a) (by omega)
      · exact ih (swapAnimated l j (j+1)) (j+1) B
          (by rw [length_swapAnimated]; omega)
          (fun a' ha1' ha2' => hb1 a' (by omega) (by omega)) a (by omega) (by omega)
    · simp only [h, if_false]
      by_cases haj : a = j
      · subst haj
        rw [bubbleInner_untouched c l (a+1) a (by omega) (by omega)]
        exact hb a (le_refl a) ha2
      · exact ih l (j+1) B (by omega)
          (fun a' ha1' ha2' => hb a' (by omega) (by omega)) a (by omega) (by omega)

theorem bubbleInner_max (c : Nat) : ∀ (l : List Item) (j : Nat),
    j + c < l.length →
    (∀ a, a ≤ j → valAt l a ≤ valAt l j) →
    (∀ a, a ≤ j + c → valAt (bubbleInner l j c).1 a ≤ valAt (bubbleInner l j c).1 (j + c)) := by
  induction c with
  | zero => intro l j _ hmax a ha; exact hmax a ha
  | succ c ih =>
    intro l j hlen hmax a ha
    unfold bubbleInner
    by_cases h : valAt l j > valAt l (j+1)
    · simp only [h, if_true]
      have hs : (swapAnimatedRun l j (j+1)).1 = swapAnimated l j (j+1) := rfl
      rw [hs]
      have hmax1 : ∀ a, a ≤ j + 1 → valAt (swapAnimated l j (j+1)) a
          ≤ valAt (swapAnimated l j (j+1)) (j+1) := by
        intro a ha
        rw [valAt_swapAnimated l j (j+1) a (by omega) (by omega),
          valAt_swapAnimated l j (j+1) (j+1) (by omega) (by omega)]
        rw [if_pos rfl]
        split_ifs with h1 h2
        · exact le_refl _
        · omega
        · have := hmax a (by omega)
          omega
      have harith : j + (c + 1) = j + 1 + c := by omega
      rw [harith]
      exact ih (swapAnimated l j (j+1)) (j+1)
        (by rw [length_swapAnimated]; omega) hmax1 a (by omega)
    · simp only [h, if_false]
      have hmax1 : ∀ a, a ≤ j + 1 → valAt l a ≤ valAt l (j+1) := by
        intro a ha
        rcases Nat.eq_or_lt_of_le ha with rfl | hlt
        · exact le_refl _
        · have := hmax a (by omega)
          omega
      have harith : j + (c + 1) = j + 1 + c := by omega
      rw [harith]
      exact ih l (j+1) (by omega) hmax1 a (by omega)

theorem bubbleOuter_length : ∀ (c : Nat) (l : List Item),
    (bubbleOuter l c).1.length = l.length := by
  intro c
  induction c with
  | zero => intro l; rfl
  | succ c ih =>
    intro l
    unfold bubbleOuter
    rw [ih, bubbleInner_length]

/-- Positions at or beyond `m` dominate everything at or below them. -/
def GoodSuffix (l : List Item) (m : Nat) : Prop :=
  ∀ a b, a ≤ b → b < l.length → m ≤ b → valAt l a ≤ valAt l b

theorem bubbleOuter_good : ∀ (c : Nat) (l : List Item), c < l.length →
    GoodSuffix l (c + 1) → GoodSuffix (bubbleOuter l c).1 1 := by
  intro c
  induction c with
  | zero =>
    intro l _ hg
    exact hg
  | succ c ih =>
    intro l hlen hg
    have hlen1 : (bubbleInner l 0 (c+1)).1.length = l.length := bubbleInner_length _ l 0
    have hwin : 0 + (c + 1) < l.length := by omega
    have hmax := bubbleInner_max (c+1) l 0 hwin
      (fun a ha => by
        have : a = 0 := by omega
        subst this
        exact le_refl _)
    have hgood1 : GoodSuffix (bubbleInner l 0 (c+1)).1 (c+1) := by
      intro a b hab hb hmb
      rw [hlen1] at hb
      by_cases hbc : b = c + 1
      · subst hbc
        have := hmax a (by omega)
        simpa using this
      · have hb2 : c + 1 < b := by omega
        have hvb : valAt (bubbleInner l 0 (c+1)).1 b = valAt l b :=
          bubbleInner_untouched (c+1) l 0 b hwin (Or.inr (by omega))
        by_cases hac : a ≤ c + 1
        · have hbnd := bubbleInner_bounded (c+1) l 0 (valAt l b) hwin
            (fun a' _ ha2' => hg a' b (by omega) hb (by omega)) a (Nat.zero_le a) (by omega)
          rw [hvb]
          exact hbnd
        · have hva : valAt (bubbleInner l 0 (c+1)).1 a = valAt l a :=
            bubbleInner_untouched (c+1) l 0 a hwin (Or.inr (by omega))
          rw [hva, hvb]
          exact hg a b hab hb (by omega)
    have hres := ih (bubbleInner l 0 (c+1)).1 (by omega) hgood1
    unfold bubbleOuter
    exact hres

/-- Bubble Sort leaves the values in non-decreasing order. -/
theorem bubbleSort_sorted (l : List Item) :
    List.Sorted (· ≤ ·) ((bubbleSort l).map Item.value) := by
  apply sorted_map_value_of_valAt
  intro a b hab hb
  have hblen : (bubbleSort l).length = l.length := bubbleOuter_length _ l
  rw [hblen] at hb
  rcases Nat.eq_zero_or_pos l.length with h0 | h0
  · omega
  · by_cases hb0 : b = 0
    · subst hb0
      have ha0 : a = 0 := by omega
      subst ha0
      exact le_refl _
    · have hvac : GoodSuffix l (l.length - 1 + 1) := by
        intro a' b' _ hb' hm'
        omega
      have hgood := bubbleOuter_good (l.length - 1) l (by omega) hvac
      exact hgood a b hab (by rw [bubbleOuter_length]; omega) (by omega)

theorem selScan_spec (c : Nat) : ∀ (l : List Item) (m j : Nat),
    ((selScan l m j c).1 = m ∨ (j ≤ (selScan l m j c).1 ∧ (selScan l m j c).1 < j + c))
    ∧ valAt l (selScan l m j c).1 ≤ valAt l m
    ∧ ∀ t, j ≤ t → t < j + c → valAt l (selScan l m j c).1 ≤ valAt l t := by
  induction c with
  | zero =>
    intro l m j
    refine ⟨Or.inl rfl, le_refl _, ?_⟩
    intro t h1 h2
    omega
  | succ c ih =>
    intro l m j
    unfold selScan
    by_cases h : valAt l j < valAt l m
    · simp only [h, if_true]
      obtain ⟨hloc, hmin, hall⟩ := ih l j (j+1)
      refine ⟨?_, ?_, ?_⟩
      · rcases hloc with heq | ⟨h1, h2⟩
        · exact Or.inr ⟨by omega, by omega⟩
        · exact Or.inr ⟨by omega, by omega⟩
      · exact le_trans hmin (le_of_lt h)
      · intro t ht1 ht2
        by_cases htj : t = j
        · subst htj
          exact hmin
        · exact hall t (by omega) (by omega)
    · simp only [h, if_false]
      obtain ⟨hloc, hmin, hall⟩ := ih l m (j+1)
      refine ⟨?_, hmin, ?_⟩
      · rcases hloc with heq | ⟨h1, h2⟩
        · exact Or.inl heq
        · exact Or.inr ⟨by omega, by omega⟩
      · intro t ht1 ht2
        by_cases htj : t = j
        · subst htj
          exact le_trans hmin (by omega)
        · exact hall t (by omega) (by omega)

/-- The prefix `[0, i)` is sorted and dominated by everything after it. -/
def PrefixGood (l : List Item) (i : Nat) : Prop :=
  ∀ a b, a < i → a ≤ b → b < l.length → valAt l a ≤ valAt l b

theorem selOuter_prefix : ∀ (c : Nat) (l : List Item) (i : Nat),
    i + c + 1 = l.length → PrefixGood l i →
    PrefixGood (selOuter l i c).1 (i + c) := by
  intro c
  induction c with
  | zero =>
    intro l i _ hp
    exact hp
  | succ c ih =>
    intro l i hlen hp
    obtain ⟨hloc, hmin, hall⟩ := selScan_spec (l.length - i - 1) l i (i+1)
    set mf := (selScan l i (i+1) (l.length - i - 1)).1 with hmf
    have hmfloc : i ≤ mf ∧ mf < l.length := by
      rcases hloc with heq | ⟨h1, h2⟩
      · omega
      · omega
    have hminall : ∀ t, i ≤ t → t < l.length → valAt l mf ≤ valAt l t := by
      intro t ht1 ht2
      by_cases hti : t = i
      · subst hti
        exact hmin
      · exact hall t (by omega) (by omega)
    have hstep : ∀ l2 : List Item, l2.length = l.length →
        (∀ t, i ≤ t → t < l.length → valAt l2 i ≤ valAt l2 t) →
        (∀ a b, a < i + 1 → a ≤ b → b < l.length → valAt l2 a ≤ valAt l2 b) →
        PrefixGood (selOuter l2 (i+1) c).1 (i + (c + 1)) := by
      intro l2 hlen2 _ hp2
      have hres := ih l2 (i+1) (by omega) (by
        intro a b ha hab hb
        exact hp2 a b ha hab (by omega))
      have harith : i + (c + 1) = i + 1 + c := by omega
      rw [harith]
      exact hres
    have hunfold : (selOuter l i (c+1)).1
        = (selOuter (if mf = i then (l, ([] : List Ev))
            else swapAnimatedRun l i mf).1 (i+1) c).1 := rfl
    rw [hunfold]
    by_cases hswap : mf = i
    · rw [if_pos hswap]
      refine hstep l rfl ?_ ?_
      · intro t ht1 ht2
        rw [← hswap]
        exact hminall t ht1 ht2
      · intro a b ha hab hb
        by_cases hai : a = i
        · subst hai
          rw [← hswap]
          exact hminall b (by omega) hb
        · exact hp a b (by omega) hab hb
    · rw [if_neg hswap]
      have hsw : (swapAnimatedRun l i mf).1 = swapAnimated l i mf := rfl
      rw [hsw]
      have hv : ∀ k, valAt (swapAnimated l i mf) k =
          if k = mf then valAt l i else if k = i then valAt l mf else valAt l k :=
        fun k => valAt_swapAnimated l i mf k (by omega) (by omega)
      refine hstep (swapAnimated l i mf) (length_swapAnimated l i mf) ?_ ?_
      · intro t ht1 ht2
        rw [hv t, hv i, if_neg (by omega), if_pos rfl]
        split_ifs with h1 h2
        · exact hmin
        · exact le_refl _
        · exact hminall t ht1 ht2
      · intro a b ha hab hb
        by_cases hai : a = i
        · subst hai
          rw [hv a, hv b, if_neg (by omega), if_pos rfl]
          split_ifs with h1 h2
          · exact hmin
          · exact le_refl _
          · exact hminall b (by omega) hb
        · have hva : valAt (swapAnimated l i mf) a = valAt l a := by
            rw [hv a, if_neg (by omega), if_neg (by omega)]
          rw [hva, hv b]
          split_ifs with h1 h2
          · exact hp a i (by omega) (by omega) (by omega)
          · exact hp a mf (by omega) (by omega) (by omega)
          · exact hp a b (by omega) hab hb

/-- Selection Sort leaves the values in non-decreasing order. -/
theorem selectionSort_sorted (l : List Item) :
    List.Sorted (· ≤ ·) ((selectionSort l).map Item.value) := by
  apply sorted_map_value_of_valAt
  intro a b hab hb
  have hslen : (selectionSort l).length = l.length := selOuter_length _ l 0
  rw [hslen] at hb
  rcases Nat.eq_zero_or_pos l.length with h0 | h0
  · omega
  · by_cases habeq : a = b
    · subst habeq
      exact le_refl _
    · have hpg := selOuter_prefix (l.length - 1) l 0 (by omega) (by
        intro a' b' ha' _ _
        omega)
      have : (0 : Nat) + (l.length - 1) = l.length - 1 := by omega
      rw [this] at hpg
      exact hpg a b (by omega) hab (by rw [selOuter_length]; omega)

theorem partLoop_spec (c : Nat) : ∀ (l : List Item) (pivot : Int) (b j high : Nat),
    b ≤ j → j + c ≤ l.length →
    (∀ t, b ≤ t → t < j → pivot < valAt l t) →
    (partLoop l pivot b j high c).2.1.length = l.length
    ∧ (∀ k, k < b ∨ j + c ≤ k →
        valAt (partLoop l pivot b j high c).2.1 k = valAt l k)
    ∧ (∀ t, b ≤ t → t < (partLoop l pivot b j high c).1 →
        valAt (partLoop l pivot b j high c).2.1 t ≤ pivot)
    ∧ (∀ t, (partLoop l pivot b j high c).1 ≤ t → t < j + c →
        pivot < valAt (partLoop l pivot b j high c).2.1 t)
    ∧ (∀ B, (∀ t, b ≤ t → t < j + c → valAt l t ≤ B) →
        ∀ t, b ≤ t → t < j + c → valAt (partLoop l pivot b j high c).2.1 t ≤ B)
    ∧ (∀ B, (∀ t, b ≤ t → t < j + c → B < valAt l t) →
        ∀ t, b ≤ t → t < j + c → B < valAt (partLoop l pivot b j high c).2.1 t) := by
  induction c with
  | zero =>
    intro l pivot b j high hbj hlen hreg
    have h0 : partLoop l pivot b j high 0 = (b, l, []) := rfl
    rw [h0]
    refine ⟨rfl, fun k _ => rfl, ?_, ?_, ?_, ?_⟩
    · intro t ht1 ht2
      exact absurd (show t < b from ht2) (by omega)
    · intro t ht1 ht2
      exact hreg t ht1 (by omega)
    · intro B hB t ht1 ht2
      exact hB t ht1 ht2
    · intro B hB t ht1 ht2
      exact hB t ht1 ht2
  | succ c ih =>
    intro l pivot b j high hbj hlen hreg
    have hunfold1 : (partLoop l pivot b j high (c+1))
        = (if valAt l j ≤ pivot then
            (let s := swapAnimatedRun l b j
             let r := partLoop s.1 pivot (b+1) (j+1) high c
             (r.1, r.2.1, .comp j high :: (s.2 ++ r.2.2)))
          else
            (let r := partLoop l pivot b (j+1) high c
             (r.1, r.2.1, .comp j high :: r.2.2))) := by
      rw [partLoop]
    by_cases h : valAt l j ≤ pivot
    · rw [hunfold1, if_pos h]
      have hsw : (swapAnimatedRun l b j).1 = swapAnimated l b j := rfl
      simp only [hsw]
      have hv : ∀ k, valAt (swapAnimated l b j) k =
          if k = j then valAt l b else if k = b then valAt l j else valAt l k :=
        fun k => valAt_swapAnimated l b j k (by omega) (by omega)
      have hreg1 : ∀ t, b + 1 ≤ t → t < j + 1 → pivot < valAt (swapAnimated l b j) t := by
        intro t ht1 ht2
        rw [hv t]
        by_cases htj : t = j
        · rw [if_pos htj]
          by_cases hbje : b = j
          · omega
          · exact hreg b (le_refl b) (by omega)
        · rw [if_neg htj, if_neg (by omega)]
          exact hreg t (by omega) (by omega)
      obtain ⟨ihlen, ihout, ihle, ihgt, ihbndle, ihbndgt⟩ :=
        ih (swapAnimated l b j) pivot (b+1) (j+1) high (by omega)
          (by rw [length_swapAnimated]; omega) hreg1
      have hout1 : ∀ k, k < b + 1 ∨ j + 1 + c ≤ k →
          valAt (partLoop (swapAnimated l b j) pivot (b+1) (j+1) high c).2.1 k
            = valAt (swapAnimated l b j) k := ihout
      have hb1 := (partLoop_b_le c (swapAnimated l b j) pivot (b+1) (j+1) high).1
      refine ⟨?_, ?_, ?_, ?_, ?_, ?_⟩
      · rw [ihlen, length_swapAnimated]
      · intro k hk
        rw [ihout k (by omega), hv k, if_neg (by omega), if_neg (by omega)]
      · intro t ht1 ht2
        by_cases htb : t = b
        · subst htb
          rw [ihout t (by omega), hv t]
          by_cases htj : t = j
          · rw [if_pos htj, htj]
            exact h
          · rw [if_neg htj, if_pos rfl]
            exact h
        · exact ihle t (by omega) ht2
      · intro t ht1 ht2
        exact ihgt t ht1 (by omega)
      · intro B hB t ht1 ht2
        have hB1 : ∀ t, b + 1 ≤ t → t < j + 1 + c → valAt (swapAnimated l b j) t ≤ B := by
          intro t ht1 ht2
          rw [hv t]
          split_ifs with h1 h2
          · exact hB b (le_refl b) (by omega)
          · exact hB j (by omega) (by omega)
          · exact hB t (by omega) (by omega)
        by_cases htb : t = b
        · subst htb
          rw [ihout t (by omega), hv t]
          split_ifs with h1 h2
          · exact hB t (le_refl t) (by omega)
          · exact hB j (by omega) (by omega)
          · exact hB t (le_refl t) (by omega)
        · exact ihbndle B hB1 t (by omega) (by omega)
      · intro B hB t ht1 ht2
        have hB1 : ∀ t, b + 1 ≤ t → t < j + 1 + c → B < valAt (swapAnimated l b j) t := by
          intro t ht1 ht2
          rw [hv t]
          split_ifs with h1 h2
          · exact hB b (le_refl b) (by omega)
          · exact hB j (by omega) (by omega)
          · exact hB t (by omega) (by omega)
        by_cases htb : t = b
        · subst htb
          rw [ihout t (by omega), hv t]
          split_ifs with h1 h2
          · exact hB t (le_refl t) (by omega)
          · exact hB j (by omega) (by omega)
          · exact hB t (le_refl t) (by omega)
        · exact ihbndgt B hB1 t (by omega) (by omega)
    · rw [hunfold1, if_neg h]
      have hreg1 : ∀ t, b ≤ t → t < j + 1 → pivot < valAt l t := by
        intro t ht1 ht2
        by_cases htj : t = j
        · subst htj
          omega
        · exact hreg t ht1 (by omega)
      obtain ⟨ihlen, ihout, ihle, ihgt, ihbndle, ihbndgt⟩ :=
        ih l pivot b (j+1) high (by omega) (by omega) hreg1
      refine ⟨ihlen, ?_, ihle, ?_, ?_, ?_⟩
      · intro k hk
        exact ihout k (by omega)
      · intro t ht1 ht2
        exact ihgt t ht1 (by omega)
      · intro B hB t ht1 ht2
        exact ihbndle B (fun t' h1 h2 => hB t' h1 (by omega)) t ht1 (by omega)
      · intro B hB t ht1 ht2
        exact ihbndgt B (fun t' h1 h2 => hB t' h1 (by omega)) t ht1 (by omega)

theorem partitionRun_spec (l : List Item) (low high : Nat)
    (hlh : low ≤ high) (hhl : high < l.length) :
    (partitionRun l low high).2.1.length = l.length
    ∧ (∀ k, k < low ∨ high < k →
        valAt (partitionRun l low high).2.1 k = valAt l k)
    ∧ (∀ t, low ≤ t → t < (partitionRun l low high).1 →
        valAt (partitionRun l low high).2.1 t
          ≤ valAt (partitionRun l low high).2.1 (partitionRun l low high).1)
    ∧ (∀ t, (partitionRun l low high).1 < t → t ≤ high →
        valAt (partitionRun l low high).2.1 (partitionRun l low high).1
          < valAt (partitionRun l low high).2.1 t)
    ∧ (∀ B, (∀ t, low ≤ t → t ≤ high → valAt l t ≤ B) →
        ∀ t, low ≤ t → t ≤ high → valAt (partitionRun l low high).2.1 t ≤ B)
    ∧ (∀ B, (∀ t, low ≤ t → t ≤ high → B < valAt l t) →
        ∀ t, low ≤ t → t ≤ high → B < valAt (partitionRun l low high).2.1 t) := by
  obtain ⟨hlen1, hout1, hle1, hgt1, hbndle1, hbndgt1⟩ :=
    partLoop_spec (high - low) l (valAt l high) low low high (le_refl low) (by omega)
      (fun t h1 h2 => absurd h2 (by omega))
  have hpb := partLoop_b_le (high - low) l (valAt l high) low low high
  have h1eq : (partitionRun l low high).1
      = (partLoop l (valAt l high) low low high (high - low)).1 := rfl
  have h2eq : (partitionRun l low high).2.1
      = swapAnimated (partLoop l (valAt l high) low low high (high - low)).2.1
          (partLoop l (valAt l high) low low high (high - low)).1 high := rfl
  set p := (partLoop l (valAt l high) low low high (high - low)).1 with hp
  set l1 := (partLoop l (valAt l high) low low high (high - low)).2.1 with hl1
  have hplow : low ≤ p := hpb.1
  have hphigh : p ≤ high := by omega
  have hpiv : valAt l1 high = valAt l high := hout1 high (Or.inr (by omega))
  have hv2 : ∀ k, valAt (swapAnimated l1 p high) k =
      if k = high then valAt l1 p else if k = p then valAt l1 high else valAt l1 k :=
    fun k => valAt_swapAnimated l1 p high k (by rw [hlen1]; omega) (by rw [hlen1]; omega)
  have hl2p : valAt (swapAnimated l1 p high) p = valAt l high := by
    rw [hv2 p]
    by_cases hph : p = high
    · rw [if_pos hph, hph, hpiv]
    · rw [if_neg hph, if_pos rfl, hpiv]
  rw [h1eq, h2eq]
  refine ⟨?_, ?_, ?_, ?_, ?_, ?_⟩
  · rw [length_swapAnimated, hlen1]
  · intro k hk
    rw [hv2 k, if_neg (by omega), if_neg (by omega)]
    exact hout1 k (by omega)
  · intro t ht1 ht2
    rw [hl2p, hv2 t, if_neg (by omega), if_neg (by omega)]
    exact hle1 t ht1 ht2
  · intro t ht1 ht2
    rw [hl2p, hv2 t]
    by_cases hth : t = high
    · rw [if_pos hth]
      exact hgt1 p (le_refl p) (by omega)
    · rw [if_neg hth, if_neg (by omega)]
      exact hgt1 t (by omega) (by omega)
  · intro B hB t ht1 ht2
    have hbl1 : ∀ x, low ≤ x → x ≤ high → valAt l1 x ≤ B := by
      intro x hx1 hx2
      by_cases hxh : x = high
      · subst hxh
        rw [hpiv]
        exact hB x hx1 hx2
      · exact hbndle1 B (fun t' h1' h2' => hB t' h1' (by omega)) x hx1 (by omega)
    rw [hv2 t]
    split_ifs with hh1 hh2
    · exact hbl1 p hplow hphigh
    · exact hbl1 high hlh (le_refl high)
    · exact hbl1 t ht1 ht2
  · intro B hB t ht1 ht2
    have hbl1 : ∀ x, low ≤ x → x ≤ high → B < valAt l1 x := by
      intro x hx1 hx2
      by_cases hxh : x = high
      · subst hxh
        rw [hpiv]
        exact hB x hx1 hx2
      · exact hbndgt1 B (fun t' h1' h2' => hB t' h1' (by omega)) x hx1 (by omega)
    rw [hv2 t]
    split_ifs with hh1 hh2
    · exact hbl1 p hplow hphigh
    · exact hbl1 high hlh (le_refl high)
    · exact hbl1 t ht1 ht2

theorem qsRun_spec (n : Nat) : ∀ (l : List Item) (low high : Nat),
    high - low ≤ n → high < l.length →
    (qsRun l low high).1.length = l.length
    ∧ (∀ k, k < low ∨ high < k → valAt (qsRun l low high).1 k = valAt l k)
    ∧ (∀ B, (∀ t, low ≤ t → t ≤ high → valAt l t ≤ B) →
        ∀ t, low ≤ t → t ≤ high → valAt (qsRun l low high).1 t ≤ B)
    ∧ (∀ B, (∀ t, low ≤ t → t ≤ high → B < valAt l t) →
        ∀ t, low ≤ t → t ≤ high → B < valAt (qsRun l low high).1 t)
    ∧ (∀ a b, low ≤ a → a ≤ b → b ≤ high →
        valAt (qsRun l low high).1 a ≤ valAt (qsRun l low high).1 b) := by
  induction n with
  | zero =>
    intro l low high hn hhl
    have hnl : ¬ low < high := by omega
    rw [qsRun, dif_neg hnl]
    exact ⟨rfl, fun k _ => rfl, fun B hB t h1 h2 => hB t h1 h2,
      fun B hB t h1 h2 => hB t h1 h2,
      fun a b h1 h2 h3 => by
        have hab : a = b := by omega
        subst hab
        exact le_refl _⟩
  | succ n ih =>
    intro l low high hn hhl
    by_cases h : low < high
    case neg =>
      rw [qsRun, dif_neg h]
      exact ⟨rfl, fun k _ => rfl, fun B hB t h1 h2 => hB t h1 h2,
        fun B hB t h1 h2 => hB t h1 h2,
        fun a b h1 h2 h3 => by
          have hab : a = b := by omega
          subst hab
          exact le_refl _⟩
    case pos =>
    obtain ⟨plen, pout, pleregion, pgtregion, pbndle, pbndgt⟩ :=
      partitionRun_spec l low high (le_of_lt h) hhl
    have hp1 := partitionRun_fst_ge l low high
    have hp2 := partitionRun_fst_le l low high (le_of_lt h)
    set p := (partitionRun l low high).1 with hpdef
    set l1 := (partitionRun l low high).2.1 with hl1def
    obtain ⟨len1, out1, bndle1, bndgt1, sorted1⟩ :=
      ih l1 low (p - 1) (by omega) (by rw [plen]; omega)
    set l2 := (qsRun l1 low (p - 1)).1 with hl2def
    obtain ⟨len2, out2, bndle2, bndgt2, sorted2⟩ :=
      ih l2 (p + 1) high (by omega) (by rw [len1, plen]; omega)
    set l3 := (qsRun l2 (p + 1) high).1 with hl3def
    have hgoal : (qsRun l low high).1 = l3 := by
      rw [qsRun, dif_pos h]
    rw [hgoal]
    have hl2p : valAt l2 p = valAt l1 p := by
      by_cases hp0 : low < p
      · exact out1 p (Or.inr (by omega))
      · have hnr : l2 = l1 := by
          rw [hl2def, qsRun, dif_neg (by omega)]
        rw [hnr]
    have hle2 : ∀ t, low ≤ t → t < p → valAt l2 t ≤ valAt l1 p := by
      intro t ht1 ht2
      refine bndle1 (valAt l1 p) ?_ t ht1 (by omega)
      intro t' h1' h2'
      by_cases ht' : t' < p
      · exact pleregion t' h1' ht'
      · have : t' = p := by omega
        subst this
        exact le_refl _
    have hgt2 : ∀ t, p < t → t ≤ high → valAt l1 p < valAt l2 t := by
      intro t ht1 ht2
      rw [out1 t (Or.inr (by omega))]
      exact pgtregion t ht1 ht2
    have hl3p : valAt l3 p = valAt l1 p := by
      rw [out2 p (Or.inl (by omega)), hl2p]
    have hle3 : ∀ t, low ≤ t → t < p → valAt l3 t ≤ valAt l1 p := by
      intro t ht1 ht2
      rw [out2 t (Or.inl (by omega))]
      exact hle2 t ht1 ht2
    have hgt3 : ∀ t, p < t → t ≤ high → valAt l1 p < valAt l3 t := by
      intro t ht1 ht2
      exact bndgt2 (valAt l1 p) hgt2 t (by omega) ht2
    refine ⟨?_, ?_, ?_, ?_, ?_⟩
    · rw [len2, len1, plen]
    · intro k hk
      rw [out2 k (by omega), out1 k (by omega), pout k hk]
    · intro B hB t ht1 ht2
      have hw1 : ∀ t, low ≤ t → t ≤ high → valAt l1 t ≤ B := pbndle B hB
      have hw2 : ∀ t, low ≤ t → t ≤ high → valAt l2 t ≤ B := by
        intro t ht1 ht2
        by_cases htp : t < p
        · exact bndle1 B (fun t' h1' h2' => hw1 t' h1' (by omega)) t ht1 (by omega)
        · by_cases htp2 : t = p
          · subst htp2
            rw [hl2p]
            exact hw1 p ht1 ht2
          · rw [out1 t (Or.inr (by omega))]
            exact hw1 t ht1 ht2
      by_cases htp : t ≤ p
      · rw [out2 t (Or.inl (by omega))]
        exact hw2 t ht1 ht2
      · exact bndle2 B (fun t' h1' h2' => hw2 t' (by omega) h2') t (by omega) ht2
    · intro B hB t ht1 ht2
      have hw1 : ∀ t, low ≤ t → t ≤ high → B < valAt l1 t := pbndgt B hB
      have hw2 : ∀ t, low ≤ t → t ≤ high → B < valAt l2 t := by
        intro t ht1 ht2
        by_cases htp : t < p
        · exact bndgt1 B (fun t' h1' h2' => hw1 t' h1' (by omega)) t ht1 (by omega)
        · by_cases htp2 : t = p
          · subst htp2
            rw [hl2p]
            exact hw1 p ht1 ht2
          · rw [out1 t (Or.inr (by omega))]
            exact hw1 t ht1 ht2
      by_cases htp : t ≤ p
      · rw [out2 t (Or.inl (by omega))]
        exact hw2 t ht1 ht2
      · exact bndgt2 B (fun t' h1' h2' => hw2 t' (by omega) h2') t (by omega) ht2
    · intro a b ha hab hb
      by_cases hbp : b < p
      · rw [out2 a (Or.inl (by omega)), out2 b (Or.inl (by omega))]
        exact sorted1 a b ha hab (by omega)
      · by_cases hbp2 : b = p
        · rw [hbp2]
          by_cases habe : a = p
          · rw [habe]
          · rw [hl3p]
            exact hle3 a ha (by omega)
        · have hbgt : p < b := by omega
          by_cases hap : a < p
          · exact le_of_lt (lt_of_le_of_lt (hle3 a ha hap) (hgt3 b hbgt hb))
          · by_cases hap2 : a = p
            · subst hap2
              rw [hl3p]
              exact le_of_lt (hgt3 b hbgt hb)
            · exact sorted2 a b (by omega) hab hb

/-- Quick Sort leaves the values in non-decreasing order. -/
theorem quickSort_sorted (l : List Item) :
    List.Sorted (· ≤ ·) ((quickSort l).map Item.value) := by
  apply sorted_map_value_of_valAt
  intro a b hab hb
  rcases Nat.eq_zero_or_pos l.length with h0 | h0
  · have hq : quickSort l = l := by
      unfold quickSort quickSortRun
      rw [h0]
      rw [qsRun, dif_neg (by omega)]
    rw [hq] at hb ⊢
    omega
  · obtain ⟨len, _, _, _, sorted⟩ :=
      qsRun_spec (l.length - 1) l 0 (l.length - 1) (by omega) (by omega)
    have hqlen : (quickSort l).length = l.length := len
    rw [hqlen] at hb
    exact sorted a b (by omega) hab (by omega)

theorem getElem?_insertIdx_ours (x : Item) :
    ∀ (l : List Item) (n j : Nat), n ≤ l.length →
    (List.insertIdx n x l)[j]? =
      if j < n then l[j]? else if j = n then some x else l[j-1]? := by
  intro l
  induction l with
  | nil =>
    intro n j hn
    have hn0 : n = 0 := by simpa using hn
    subst hn0
    simp only [List.insertIdx_zero]
    cases j with
    | zero => simp
    | succ m => simp
  | cons a t ih =>
    intro n j hn
    cases n with
    | zero =>
      simp only [List.insertIdx_zero]
      cases j with
      | zero => simp
      | succ m => simp [Nat.succ_sub_one]
    | succ n' =>
      simp only [List.insertIdx_succ_cons]
      cases j with
      | zero => simp
      | succ m =>
        simp only [List.getElem?_cons_succ]
        rw [ih n' m (by simpa using hn)]
        by_cases h1 : m < n'
        · rw [if_pos h1, if_pos (by omega)]
        · rw [if_neg h1]
          by_cases h2 : m = n'
          · rw [if_pos h2, if_neg (by omega), if_pos (by omega)]
          · rw [if_neg h2, if_neg (by omega), if_neg (by omega)]
            have hm : 1 ≤ m := by omega
            rw [show m + 1 - 1 = (m - 1) + 1 from by omega]
            simp [List.getElem?_cons_succ]

theorem valAt_out_of_range (l : List Item) (j : Nat) (h : l.length ≤ j) :
    valAt l j = (default : Item).value := by
  unfold valAt
  rw [List.getD_eq_default]
  simpa using h

/-- Pointwise description of a downward relocation (`toIdx ≤ fromIdx`). -/
theorem valAt_move_down (l : List Item) (c k : Nat)
    (hk : k ≤ c) (hc : c < l.length) :
    ∀ j, valAt (moveElementToIndexRun l c k).1 j =
      if j < k then valAt l j
      else if j = k then valAt l c
      else if j ≤ c then valAt l (j - 1)
      else valAt l j := by
  intro j
  have hmv : (moveElementToIndexRun l c k).1 = moveElementToIndex l c k := rfl
  have hlenm : (l.eraseIdx c).length = l.length - 1 := by
    rw [List.length_eraseIdx]
    simp [hc]
  rw [hmv, moveElementToIndex_extract_insert l c k hc (by omega)]
  split_ifs with h1 h2 h3
  · have he : (List.insertIdx k (l.getD c default) (l.eraseIdx c))[j]? = l[j]? := by
      rw [getElem?_insertIdx_ours _ _ _ _ (by omega), if_pos h1, List.getElem?_eraseIdx,
        if_pos (by omega)]
    unfold valAt
    rw [List.getD_eq_getElem?_getD (List.insertIdx k (l.getD c default) (l.eraseIdx c)) j default,
      List.getD_eq_getElem?_getD l j default, he]
  · have he : (List.insertIdx k (l.getD c default) (l.eraseIdx c))[j]?
        = some (l.getD c default) := by
      rw [getElem?_insertIdx_ours _ _ _ _ (by omega), if_neg h1, if_pos h2]
    unfold valAt
    rw [List.getD_eq_getElem?_getD (List.insertIdx k (l.getD c default) (l.eraseIdx c)) j default,
      he]
    rfl
  · have he : (List.insertIdx k (l.getD c default) (l.eraseIdx c))[j]? = l[j-1]? := by
      rw [getElem?_insertIdx_ours _ _ _ _ (by omega), if_neg h1, if_neg h2,
        List.getElem?_eraseIdx, if_pos (by omega)]
    unfold valAt
    rw [List.getD_eq_getElem?_getD (List.insertIdx k (l.getD c default) (l.eraseIdx c)) j default,
      List.getD_eq_getElem?_getD l (j - 1) default, he]
  · have he : (List.insertIdx k (l.getD c default) (l.eraseIdx c))[j]? = l[j]? := by
      rw [getElem?_insertIdx_ours _ _ _ _ (by omega), if_neg h1, if_neg h2,
        List.getElem?_eraseIdx, if_neg (by omega), show j - 1 + 1 = j from by omega]
    unfold valAt
    rw [List.getD_eq_getElem?_getD (List.insertIdx k (l.getD c default) (l.eraseIdx c)) j default,
      List.getD_eq_getElem?_getD l j default, he]

/-- With globally distinct values, `findIndex` from `left` returns exactly
the (unique) position of the sought value. -/
theorem findIdxFrom_spec (l : List Item) (left t : Nat) (x : Int)
    (hnodup : (l.map Item.value).Nodup) (ht : t < l.length) (hleft : left ≤ t)
    (hx : valAt l t = x) :
    findIdxFrom l left x = some t := by
  unfold findIdxFrom
  have hxt : ∀ (u : Nat) (hu : u < l.length), (l.get ⟨u, hu⟩).value = x → u = t := by
    intro u hu hux
    have hmapu : (l.map Item.value).get ⟨u, by simpa using hu⟩ = x := by
      simpa using hux
    have hmapt : (l.map Item.value).get ⟨t, by simpa using ht⟩ = x := by
      unfold valAt at hx
      rw [List.getD_eq_getElem l default ht] at hx
      simpa using hx
    have := List.Nodup.get_inj_iff hnodup (i := ⟨u, by simpa using hu⟩)
      (j := ⟨t, by simpa using ht⟩)
    have heq : (⟨u, by simpa using hu⟩ : Fin (l.map Item.value).length)
        = ⟨t, by simpa using ht⟩ := by
      rw [← this]
      rw [hmapu, hmapt]
    simpa using congrArg Fin.val heq
  have hfind : (l.drop left).findIdx? (fun c => c.value = x) = some (t - left) := by
    rw [List.findIdx?_eq_some_iff_getElem]
    refine ⟨by simp; omega, ?_, ?_⟩
    · simp only [List.getElem_drop, decide_eq_true_eq]
      unfold valAt at hx
      simp only [Nat.add_sub_cancel' hleft]
      rwa [List.getD_eq_getElem l default ht] at hx
    · intro j hj
      simp only [List.getElem_drop, Bool.not_eq_true, decide_eq_false_iff_not]
      intro hcontra
      have hrange : left + j < l.length := by
        have := (by simp : (l.drop left).length = l.length - left)
        omega
      have := hxt (left + j) hrange (by simpa using hcontra)
      omega
  rw [hfind]
  simp only [Option.map_some']
  congr 1
  omega

/-- One placement step of the merge loop on a distinct-valued array: the
lookup finds the unique position `c ∈ [k, right]` of the next merged value
`x`, and relocating it to slot `k` extends the sorted placed prefix while
keeping all still-pending values inside `[k+1, right]`. -/
theorem mergeStep_spec (l : List Item) (left k right : Nat) (x : Int)
    (hlk : left ≤ k) (hrl : right < l.length)
    (hnodup : (l.map Item.value).Nodup)
    (hplaced_le : ∀ a, left ≤ a → a < k → valAt l a ≤ x)
    (hpos : ∃ t, k ≤ t ∧ t ≤ right ∧ valAt l t = x) :
    ∃ c, findIdxFrom l left x = some c ∧ k ≤ c ∧ c ≤ right
    ∧ (moveElementToIndexRun l c k).1.length = l.length
    ∧ ((moveElementToIndexRun l c k).1).Perm l
    ∧ valAt (moveElementToIndexRun l c k).1 k = x
    ∧ (∀ j, j < k → valAt (moveElementToIndexRun l c k).1 j = valAt l j)
    ∧ (∀ j, right < j → valAt (moveElementToIndexRun l c k).1 j = valAt l j)
    ∧ (∀ y, y ≠ x → (∃ t, k ≤ t ∧ t ≤ right ∧ valAt l t = y) →
        (∃ t, k + 1 ≤ t ∧ t ≤ right ∧ valAt (moveElementToIndexRun l c k).1 t = y)) := by
  obtain ⟨t, htk, htr, htx⟩ := hpos
  have hfc : findIdxFrom l left x = some t :=
    findIdxFrom_spec l left t x hnodup (by omega) (by omega) htx
  have hmv := valAt_move_down l t k (by omega) (by omega)
  refine ⟨t, hfc, htk, htr, moveElementToIndexRun_length l t k,
    moveElementToIndexRun_perm l t k, ?_, ?_, ?_, ?_⟩
  · rw [hmv k]
    by_cases hkt : k < t
    · rw [if_neg (by omega), if_pos rfl]
      exact htx
    · have : k = t := by omega
      subst this
      rw [if_neg (by omega), if_pos rfl]
      exact htx
  · intro j hj
    rw [hmv j, if_pos hj]
  · intro j hj
    rw [hmv j, if_neg (by omega), if_neg (by omega), if_neg (by omega)]
  · intro y hyx ⟨t', ht'1, ht'2, ht'3⟩
    have htt' : t' ≠ t := by
      intro hcontra
      subst hcontra
      rw [htx] at ht'3
      exact hyx ht'3.symm
    by_cases hlt : t' < t
    · refine ⟨t' + 1, by omega, by omega, ?_⟩
      rw [hmv (t' + 1), if_neg (by omega), if_neg (by omega), if_pos (by omega)]
      simpa using ht'3
    · refine ⟨t', by omega, by omega, ?_⟩
      rw [hmv t', if_neg (by omega), if_neg (by omega), if_neg (by omega)]
      exact ht'3

theorem mergeLoop_spec (n : Nat) : ∀ (valsL valsR : List Int) (left k : Nat)
    (l : List Item) (right : Nat),
    valsL.length + valsR.length ≤ n →
    left ≤ k → k + valsL.length + valsR.length = right + 1 → right < l.length →
    (l.map Item.value).Nodup →
    valsL.Sorted (· ≤ ·) → valsR.Sorted (· ≤ ·) →
    (valsL ++ valsR).Nodup →
    (∀ a b, left ≤ a → a ≤ b → b < k → valAt l a ≤ valAt l b) →
    (∀ a, left ≤ a → a < k → ∀ x ∈ valsL ++ valsR, valAt l a ≤ x) →
    (∀ x ∈ valsL ++ valsR, ∃ t, k ≤ t ∧ t ≤ right ∧ valAt l t = x) →
    ∃ r, mergeLoop valsL valsR left k l = some r
    ∧ (∀ a b, left ≤ a → a ≤ b → b ≤ right → valAt r.1 a ≤ valAt r.1 b)
    ∧ (∀ j, j < left → valAt r.1 j = valAt l j)
    ∧ (∀ j, right < j → valAt r.1 j = valAt l j)
    ∧ r.1.length = l.length
    ∧ r.1.Perm l := by
  induction n with
  | zero =>
    intro valsL valsR left k l right hn hlk hgeom hrl hnd hsL hsR hndp hps hple hpos
    cases valsL with
    | cons v ls => simp at hn
    | nil =>
      cases valsR with
      | cons v rs => simp at hn
      | nil =>
        refine ⟨(l, []), by simp [mergeLoop], ?_, fun j _ => rfl, fun j _ => rfl, rfl,
          List.Perm.refl l⟩
        intro a b ha hab hb
        simp only [List.length_nil] at hgeom
        exact hps a b ha hab (by omega)
  | succ n ih =>
    intro valsL valsR left k l right hn hlk hgeom hrl hnd hsL hsR hndp hps hple hpos
    cases valsL with
    | nil =>
      cases valsR with
      | nil =>
        refine ⟨(l, []), by simp [mergeLoop], ?_, fun j _ => rfl, fun j _ => rfl, rfl,
          List.Perm.refl l⟩
        intro a b ha hab hb
        simp only [List.length_nil] at hgeom
        exact hps a b ha hab (by omega)
      | cons valR rs =>
        obtain ⟨c, hfc, hck, hcr, hlen', hperm', hvk, hbelow, habove, htransfer⟩ :=
          mergeStep_spec l left k right valR hlk hrl hnd
            (fun a h1 h2 => hple a h1 h2 valR (by simp))
            (hpos valR (by simp))
        have hnd' : ((moveElementToIndexRun l c k).1.map Item.value).Nodup :=
          ((hperm'.map Item.value).nodup_iff).mpr hnd
        have hvR : ∀ x ∈ rs, valR ≤ x := List.rel_of_sorted_cons hsR
        have hndrs : valR ∉ rs := by
          simp only [List.nil_append] at hndp
          exact (List.nodup_cons.mp hndp).1
        obtain ⟨r', hr'eq, hr's, hr'oL, hr'oR, hr'len, hr'perm⟩ :=
          ih [] rs left (k+1) (moveElementToIndexRun l c k).1 right
            (by simp at hn ⊢; omega) (by omega)
            (by simp at hgeom ⊢; omega) (by omega) hnd'
            List.sorted_nil (hsR.of_cons) (by simpa using (List.nodup_cons.mp (by simpa using hndp)).2)
            (by
              intro a b ha hab hb
              by_cases hbk : b < k
              · rw [hbelow a (by omega), hbelow b (by omega)]
                exact hps a b ha hab (by omega)
              · have hbk2 : b = k := by omega
                subst hbk2
                rw [hvk]
                by_cases hak : a = b
                · rw [hak, hvk]
                · rw [hbelow a (by omega)]
                  exact hple a ha (by omega) valR (by simp))
            (by
              intro a ha hak x hx
              by_cases hak2 : a < k
              · rw [hbelow a hak2]
                exact hple a ha hak2 x (by simp at hx ⊢; tauto)
              · have : a = k := by omega
                subst this
                rw [hvk]
                exact hvR x (by simpa using hx))
            (by
              intro x hx
              refine htransfer x ?_ (hpos x (by simp at hx ⊢; tauto))
              intro hcontra
              subst hcontra
              exact hndrs (by simpa using hx))
        refine ⟨(r'.1, (moveElementToIndexRun l c k).2 ++ r'.2), ?_, hr's, ?_, ?_, ?_, ?_⟩
        · simp only [mergeLoop, hfc, hr'eq]
        · intro j hj
          rw [hr'oL j hj, hbelow j (by omega)]
        · intro j hj
          rw [hr'oR j hj, habove j hj]
        · rw [hr'len, hlen']
        · exact hr'perm.trans hperm'
    | cons valL ls =>
      cases valsR with
      | nil =>
        obtain ⟨c, hfc, hck, hcr, hlen', hperm', hvk, hbelow, habove, htransfer⟩ :=
          mergeStep_spec l left k right valL hlk hrl hnd
            (fun a h1 h2 => hple a h1 h2 valL (by simp))
            (hpos valL (by simp))
        have hnd' : ((moveElementToIndexRun l c k).1.map Item.value).Nodup :=
          ((hperm'.map Item.value).nodup_iff).mpr hnd
        have hvL : ∀ x ∈ ls, valL ≤ x := List.rel_of_sorted_cons hsL
        have hndls : valL ∉ ls := by
          simp only [List.append_nil] at hndp
          exact (List.nodup_cons.mp hndp).1
        obtain ⟨r', hr'eq, hr's, hr'oL, hr'oR, hr'len, hr'perm⟩ :=
          ih ls [] left (k+1) (moveElementToIndexRun l c k).1 right
            (by simp at hn ⊢; omega) (by omega)
            (by simp at hgeom ⊢; omega) (by omega) hnd'
            (hsL.of_cons) List.sorted_nil
            (by simpa using (List.nodup_cons.mp (by simpa using hndp)).2)
            (by
              intro a b ha hab hb
              by_cases hbk : b < k
              · rw [hbelow a (by omega), hbelow b (by omega)]
                exact hps a b ha hab (by omega)
              · have hbk2 : b = k := by omega
                subst hbk2
                rw [hvk]
                by_cases hak : a = b
                · rw [hak, hvk]
                · rw [hbelow a (by omega)]
                  exact hple a ha (by omega) valL (by simp))
            (by
              intro a ha hak x hx
              by_cases hak2 : a < k
              · rw [hbelow a hak2]
                exact hple a ha hak2 x (by simp at hx ⊢; tauto)
              · have : a = k := by omega
                subst this
                rw [hvk]
                exact hvL x (by simpa using hx))
            (by
              intro x hx
              refine htransfer x ?_ (hpos x (by simp at hx ⊢; tauto))
              intro hcontra
              subst hcontra
              exact hndls (by simpa using hx))
        refine ⟨(r'.1, (moveElementToIndexRun l c k).2 ++ r'.2), ?_, hr's, ?_, ?_, ?_, ?_⟩
        · simp only [mergeLoop, hfc, hr'eq]
        · intro j hj
          rw [hr'oL j hj, hbelow j (by omega)]
        · intro j hj
          rw [hr'oR j hj, habove j hj]
        · rw [hr'len, hlen']
        · exact hr'perm.trans hperm'
      | cons valR rs =>
        have hvL : ∀ x ∈ ls, valL ≤ x := List.rel_of_sorted_cons hsL
        have hvR : ∀ x ∈ rs, valR ≤ x := List.rel_of_sorted_cons hsR
        by_cases hcmp : valL ≤ valR
        · obtain ⟨c, hfc, hck, hcr, hlen', hperm', hvk, hbelow, habove, htransfer⟩ :=
            mergeStep_spec l left k right valL hlk hrl hnd
              (fun a h1 h2 => hple a h1 h2 valL (by simp))
              (hpos valL (by simp))
          obtain ⟨tR, htR1, htR2, htR3⟩ := hpos valR (by simp)
          have hfcR : findIdxFrom l left valR = some tR :=
            findIdxFrom_spec l left tR valR hnd (by omega) (by omega) htR3
          have hnd' : ((moveElementToIndexRun l c k).1.map Item.value).Nodup :=
            ((hperm'.map Item.value).nodup_iff).mpr hnd
          have hndL : valL ∉ ls ++ valR :: rs := by
            rw [List.cons_append] at hndp
            exact (List.nodup_cons.mp hndp).1
          obtain ⟨r', hr'eq, hr's, hr'oL, hr'oR, hr'len, hr'perm⟩ :=
            ih ls (valR :: rs) left (k+1) (moveElementToIndexRun l c k).1 right
              (by simp at hn ⊢; omega) (by omega)
              (by simp at hgeom ⊢; omega) (by omega) hnd'
              (hsL.of_cons) hsR
              (by
                rw [List.cons_append] at hndp
                exact (List.nodup_cons.mp hndp).2)
              (by
                intro a b ha hab hb
                by_cases hbk : b < k
                · rw [hbelow a (by omega), hbelow b (by omega)]
                  exact hps a b ha hab (by omega)
                · have hbk2 : b = k := by omega
                  subst hbk2
                  rw [hvk]
                  by_cases hak : a = b
                  · rw [hak, hvk]
                  · rw [hbelow a (by omega)]
                    exact hple a ha (by omega) valL (by simp))
              (by
                intro a ha hak x hx
                by_cases hak2 : a < k
                · rw [hbelow a hak2]
                  refine hple a ha hak2 x ?_
                  simp at hx ⊢
                  tauto
                · have : a = k := by omega
                  subst this
                  rw [hvk]
                  simp only [List.mem_append, List.mem_cons] at hx
                  rcases hx with hx | hx | hx
                  · exact hvL x hx
                  · omega
                  · exact le_trans hcmp (hvR x hx))
              (by
                intro x hx
                refine htransfer x ?_ (hpos x (by simp at hx ⊢; tauto))
                intro hcontra
                subst hcontra
                exact hndL (by simpa using hx))
          refine ⟨(r'.1, [Ev.comp c tR] ++ (moveElementToIndexRun l c k).2 ++ r'.2),
            ?_, hr's, ?_, ?_, ?_, ?_⟩
          · simp only [mergeLoop, hfc, hfcR, hcmp, if_true, hr'eq]
          · intro j hj
            rw [hr'oL j hj, hbelow j (by omega)]
          · intro j hj
            rw [hr'oR j hj, habove j hj]
          · rw [hr'len, hlen']
          · exact hr'perm.trans hperm'
        · obtain ⟨c, hfc, hck, hcr, hlen', hperm', hvk, hbelow, habove, htransfer⟩ :=
            mergeStep_spec l left k right valR hlk hrl hnd
              (fun a h1 h2 => hple a h1 h2 valR (by simp))
              (hpos valR (by simp))
          obtain ⟨tL, htL1, htL2, htL3⟩ := hpos valL (by simp)
          have hfcL : findIdxFrom l left valL = some tL :=
            findIdxFrom_spec l left tL valL hnd (by omega) (by omega) htL3
          have hnd' : ((moveElementToIndexRun l c k).1.map Item.value).Nodup :=
            ((hperm'.map Item.value).nodup_iff).mpr hnd
          have hndR : valR ∉ (valL :: ls) ++ rs := by
            rw [List.nodup_append] at hndp
            obtain ⟨hA, hB, hdisj⟩ := hndp
            intro hcontra
            rcases List.mem_append.mp hcontra with h | h
            · exact hdisj h (List.mem_cons_self valR rs)
            · exact (List.nodup_cons.mp hB).1 h
          obtain ⟨r', hr'eq, hr's, hr'oL, hr'oR, hr'len, hr'perm⟩ :=
            ih (valL :: ls) rs left (k+1) (moveElementToIndexRun l c k).1 right
              (by simp at hn ⊢; omega) (by omega)
              (by simp at hgeom ⊢; omega) (by omega) hnd'
              hsL (hsR.of_cons)
              (by
                have hsub : ((valL :: ls) ++ rs).Sublist ((valL :: ls) ++ valR :: rs) :=
                  List.Sublist.append_left (List.sublist_cons_self valR rs) (valL :: ls)
                exact hsub.nodup hndp)
              (by
                intro a b ha hab hb
                by_cases hbk : b < k
                · rw [hbelow a (by omega), hbelow b (by omega)]
                  exact hps a b ha hab (by omega)
                · have hbk2 : b = k := by omega
                  subst hbk2
                  rw [hvk]
                  by_cases hak : a = b
                  · rw [hak, hvk]
                  · rw [hbelow a (by omega)]
                    exact hple a ha (by omega) valR (by simp))
              (by
                intro a ha hak x hx
                by_cases hak2 : a < k
                · rw [hbelow a hak2]
                  refine hple a ha hak2 x ?_
                  simp at hx ⊢
                  tauto
                · have : a = k := by omega
                  subst this
                  rw [hvk]
                  simp only [List.mem_append, List.mem_cons] at hx
                  rcases hx with (hx | hx) | hx
                  · subst hx
                    omega
                  · exact le_trans (by omega) (hvL x hx)
                  · exact hvR x hx)
              (by
                intro x hx
                refine htransfer x ?_ (hpos x (by simp at hx ⊢; tauto))
                intro hcontra
                subst hcontra
                exact hndR hx)
          refine ⟨(r'.1, [Ev.comp tL c] ++ (moveElementToIndexRun l c k).2 ++ r'.2),
            ?_, hr's, ?_, ?_, ?_, ?_⟩
          · simp only [mergeLoop, hfc, hfcL, hcmp, if_false, hr'eq]
          · intro j hj
            rw [hr'oL j hj, hbelow j (by omega)]
          · intro j hj
            rw [hr'oR j hj, habove j hj]
          · rw [hr'len, hlen']
          · exact hr'perm.trans hperm'

theorem slice_length (l : List Item) (a len : Nat) (h : a + len ≤ l.length) :
    (((l.drop a).take len).map Item.value).length = len := by
  simp [List.length_take, List.length_drop]
  omega

theorem slice_getElem (l : List Item) (a len i : Nat) (hal : a + len ≤ l.length)
    (hi : i < (((l.drop a).take len).map Item.value).length) :
    (((l.drop a).take len).map Item.value).get ⟨i, hi⟩ = valAt l (a + i) := by
  have hi2 : i < len := by
    simp [List.length_take, List.length_drop] at hi
    omega
  have hai : a + i < l.length := by omega
  simp only [List.get_eq_getElem, List.getElem_map, List.getElem_take, List.getElem_drop]
  rw [valAt, List.getD_eq_getElem l default hai]

theorem slice_sorted (l : List Item) (a len : Nat) (hal : a + len ≤ l.length)
    (h : ∀ p q, a ≤ p → p ≤ q → q < a + len → valAt l p ≤ valAt l q) :
    List.Sorted (· ≤ ·) (((l.drop a).take len).map Item.value) := by
  rw [List.Sorted, List.pairwise_iff_getElem]
  intro i j hi hj hij
  have e1 := slice_getElem l a len i hal hi
  have e2 := slice_getElem l a len j hal hj
  simp only [List.get_eq_getElem] at e1 e2
  rw [e1, e2]
  have hj2 : j < len := by
    simp [List.length_take, List.length_drop] at hj
    omega
  exact h (a + i) (a + j) (by omega) (by omega) (by omega)

theorem slice_mem_pos (l : List Item) (a len : Nat) (hal : a + len ≤ l.length)
    (x : Int) (hx : x ∈ ((l.drop a).take len).map Item.value) :
    ∃ t, a ≤ t ∧ t < a + len ∧ valAt l t = x := by
  obtain ⟨i, hval⟩ := List.mem_iff_get.mp hx
  have hi2 : (i : Nat) < len := by
    have := i.2
    simp [List.length_take, List.length_drop] at this
    omega
  refine ⟨a + i.1, by omega, by omega, ?_⟩
  rw [← slice_getElem l a len i.1 hal i.2]
  rw [hval]

theorem slice_append (l : List Item) (left mid right : Nat) (h1 : left ≤ mid + 1)
    (h2 : mid ≤ right) :
    ((l.drop left).take (mid + 1 - left)).map Item.value
      ++ ((l.drop (mid + 1)).take (right - mid)).map Item.value
    = ((l.drop left).take (right + 1 - left)).map Item.value := by
  rw [← List.map_append]
  congr 1
  have hsplit : right + 1 - left = (mid + 1 - left) + (right - mid) := by omega
  rw [hsplit, List.take_add, List.drop_drop]
  have harith : left + (mid + 1 - left) = mid + 1 := by omega
  rw [harith]

theorem slice_nodup (l : List Item) (a len : Nat) (hnd : (l.map Item.value).Nodup) :
    (((l.drop a).take len).map Item.value).Nodup := by
  have hs : ((l.drop a).take len).Sublist l :=
    (List.take_sublist _ _).trans (List.drop_sublist _ _)
  exact hnd.sublist (hs.map Item.value)

theorem mergeRun_spec (l : List Item) (left mid right : Nat)
    (h1 : left ≤ mid) (h2 : mid < right) (h3 : right < l.length)
    (hnd : (l.map Item.value).Nodup)
    (hsl : ∀ a b, left ≤ a → a ≤ b → b ≤ mid → valAt l a ≤ valAt l b)
    (hsr : ∀ a b, mid + 1 ≤ a → a ≤ b → b ≤ right → valAt l a ≤ valAt l b) :
    ∃ r, mergeRun l left mid right = some r
    ∧ (∀ a b, left ≤ a → a ≤ b → b ≤ right → valAt r.1 a ≤ valAt r.1 b)
    ∧ (∀ j, j < left → valAt r.1 j = valAt l j)
    ∧ (∀ j, right < j → valAt r.1 j = valAt l j)
    ∧ r.1.length = l.length ∧ r.1.Perm l := by
  have hlenL : (((l.drop left).take (mid + 1 - left)).map Item.value).length
      = mid + 1 - left := slice_length l left (mid + 1 - left) (by omega)
  have hlenR : (((l.drop (mid + 1)).take (right - mid)).map Item.value).length
      = right - mid := slice_length l (mid + 1) (right - mid) (by omega)
  have happ := slice_append l left mid right (by omega) (by omega)
  obtain ⟨r, hr, hsort, hoL, hoR, hlen, hperm⟩ :=
    mergeLoop_spec
      ((((l.drop left).take (mid + 1 - left)).map Item.value).length
        + (((l.drop (mid + 1)).take (right - mid)).map Item.value).length)
      (((l.drop left).take (mid + 1 - left)).map Item.value)
      (((l.drop (mid + 1)).take (right - mid)).map Item.value)
      left left l right le_rfl le_rfl (by rw [hlenL, hlenR]; omega) h3 hnd
      (slice_sorted l left (mid + 1 - left) (by omega)
        (fun p q hp hpq hq => hsl p q hp hpq (by omega)))
      (slice_sorted l (mid + 1) (right - mid) (by omega)
        (fun p q hp hpq hq => hsr p q hp hpq (by omega)))
      (by rw [happ]; exact slice_nodup l left (right + 1 - left) hnd)
      (fun a b ha hab hb => absurd hb (by omega))
      (fun a ha hak => absurd hak (by omega))
      (by
        intro x hx
        rw [happ] at hx
        obtain ⟨t, ht1, ht2, ht3⟩ := slice_mem_pos l left (right + 1 - left) (by omega) x hx
        exact ⟨t, ht1, by omega, ht3⟩)
  exact ⟨r, hr, hsort, hoL, hoR, hlen, hperm⟩

theorem msRun_spec (n : Nat) : ∀ (l : List Item) (left right : Nat),
    right - left ≤ n → right < l.length → (l.map Item.value).Nodup →
    ∃ r, msRun l left right = some r
    ∧ (∀ a b, left ≤ a → a ≤ b → b ≤ right → valAt r.1 a ≤ valAt r.1 b)
    ∧ (∀ j, j < left ∨ right < j → valAt r.1 j = valAt l j)
    ∧ r.1.length = l.length ∧ r.1.Perm l := by
  induction n with
  | zero =>
    intro l left right hle hrl hnd
    refine ⟨(l, []), by rw [msRun, if_pos (by omega : left ≥ right)], ?_,
      fun j _ => rfl, rfl, List.Perm.refl l⟩
    intro a b ha hab hb
    have hab2 : a = b := by omega
    subst hab2
    exact le_refl _
  | succ n ih =>
    intro l left right hle hrl hnd
    by_cases hlr : left ≥ right
    · refine ⟨(l, []), by rw [msRun, if_pos hlr], ?_,
        fun j _ => rfl, rfl, List.Perm.refl l⟩
      intro a b ha hab hb
      have hab2 : a = b := by omega
      subst hab2
      exact le_refl _
    · obtain ⟨r1, hr1eq, hr1s, hr1o, hr1len, hr1perm⟩ :=
        ih l left ((left + right) / 2) (by omega) (by omega) hnd
      have hnd1 : (r1.1.map Item.value).Nodup :=
        ((hr1perm.map Item.value).nodup_iff).mpr hnd
      obtain ⟨r2, hr2eq, hr2s, hr2o, hr2len, hr2perm⟩ :=
        ih r1.1 ((left + right) / 2 + 1) right (by omega) (by omega) hnd1
      have hnd2 : (r2.1.map Item.value).Nodup :=
        ((hr2perm.map Item.value).nodup_iff).mpr hnd1
      obtain ⟨r3, hr3eq, hr3s, hr3oL, hr3oR, hr3len, hr3perm⟩ :=
        mergeRun_spec r2.1 left ((left + right) / 2) right (by omega) (by omega)
          (by omega) hnd2
          (by
            intro a b ha hab hb
            rw [hr2o a (Or.inl (by omega)), hr2o b (Or.inl (by omega))]
            exact hr1s a b ha hab hb)
          (by
            intro a b ha hab hb
            exact hr2s a b ha hab hb)
      refine ⟨(r3.1, r1.2 ++ r2.2 ++ r3.2), ?_, hr3s, ?_, ?_, ?_⟩
      · rw [msRun, if_neg hlr, hr1eq]
        simp only []
        rw [hr2eq]
        simp only []
        rw [hr3eq]
      · intro j hj
        rcases hj with hj | hj
        · rw [hr3oL j hj, hr2o j (Or.inl (by omega)), hr1o j (Or.inl hj)]
        · rw [hr3oR j hj, hr2o j (Or.inr hj), hr1o j (Or.inr (by omega))]
      · rw [hr3len, hr2len, hr1len]
      · exact (hr3perm.trans hr2perm).trans hr1perm

/-- C1 counterexample: merge sort applied to the duplicate-valued input
`[0, 2, 0, 1]` finishes with the values `[0, 1, 0, 2]`, which is not
non-decreasing: the value-based `findIndex` lookup relocates the wrong
physical element once a duplicate value occurs. -/
theorem C1_counterexample :
    (mergeSort [⟨0,0⟩, ⟨1,2⟩, ⟨2,0⟩, ⟨3,1⟩]).map (fun r => r.map Item.value)
      = some [0, 1, 0, 2]
    ∧ ¬ List.Sorted (· ≤ ·) [(0 : Int), 1, 0, 2] := by
  constructor
  · simp [mergeSort, mergeSortRun, msRun, mergeRun, mergeLoop, findIdxFrom,
      moveElementToIndexRun, moveUpRun, moveDownRun, swapAnimatedRun, swapInArray,
      listSwap]
  · decide

/-- C1 (amended): bubble, selection and quick sort leave the values
non-decreasing on every input, duplicates included; merge sort completes
and leaves the values non-decreasing whenever the input values are
pairwise distinct (on duplicate values it can fail to sort, see the
counterexample). -/
theorem C1_sortedness (l : List Item) :
    List.Sorted (· ≤ ·) ((bubbleSort l).map Item.value)
    ∧ List.Sorted (· ≤ ·) ((selectionSort l).map Item.value)
    ∧ List.Sorted (· ≤ ·) ((quickSort l).map Item.value)
    ∧ ((l.map Item.value).Nodup →
        ∃ r, mergeSort l = some r ∧ List.Sorted (· ≤ ·) (r.map Item.value)) := by
  refine ⟨bubbleSort_sorted l, selectionSort_sorted l, quickSort_sorted l, ?_⟩
  intro hnd
  rcases Nat.eq_zero_or_pos l.length with h0 | h0
  · have hnil : l = [] := List.length_eq_zero.mp h0
    subst hnil
    refine ⟨[], ?_, by simp⟩
    have hms : msRun ([] : List Item) 0 0 = some ([], []) := by
      rw [msRun]
      simp
    simp [mergeSort, mergeSortRun, hms]
  · obtain ⟨r, hr, hs, ho, hlen, hperm⟩ :=
      msRun_spec l.length l 0 (l.length - 1) (by omega) (by omega) hnd
    refine ⟨r.1, ?_, ?_⟩
    · simp [mergeSort, mergeSortRun, hr]
    · apply sorted_map_value_of_valAt
      intro a b hab hb
      rw [hlen] at hb
      exact hs a b (Nat.zero_le a) hab (by omega)

theorem C1_sortedness_witness :
    ∃ r, mergeSort [⟨0,3⟩, ⟨1,1⟩, ⟨2,2⟩] = some r
      ∧ List.Sorted (· ≤ ·) (r.map Item.value) :=
  (C1_sortedness [⟨0,3⟩, ⟨1,1⟩, ⟨2,2⟩]).2.2.2 (by decide)

/-- C2 counterexample: merge sort on two items with the equal value 5 and
ids 0, 1 (in that input order) finishes with the ids in order 1, 0: the
equal-valued items did not retain their relative order, so merge sort is
not stable on duplicate values. -/
theorem C2_counterexample :
    mergeSort [⟨0,5⟩, ⟨1,5⟩] = some [⟨1,5⟩, ⟨0,5⟩]
    ∧ Item.value ⟨0,5⟩ = Item.value ⟨1,5⟩
    ∧ [⟨1,5⟩, ⟨0,5⟩] ≠ ([⟨0,5⟩, ⟨1,5⟩] : List Item) := by
  refine ⟨?_, rfl, by decide⟩
  simp [mergeSort, mergeSortRun, msRun, mergeRun, mergeLoop, findIdxFrom,
    moveElementToIndexRun, moveUpRun, moveDownRun, swapAnimatedRun, swapInArray,
    listSwap]

/-- C2 (amended): the merge loop's comparison `valL <= valR` does prefer the
left snapshot's candidate on a tie — whenever the left value's lookup
succeeds and `valL ≤ valR` (equality included), the step consumes the left
snapshot head and relocates the element found for the left value; but
because elements are re-located by value-based first-occurrence lookup,
this preference does not make the sort stable on duplicate values (see the
counterexample). -/
theorem C2_merge_left_preference (valL valR : Int) (ls rs : List Int)
    (left k : Nat) (l : List Item) (c : Nat)
    (hcmp : valL ≤ valR) (hf : findIdxFrom l left valL = some c) :
    ∃ cmpEvs, mergeLoop (valL :: ls) (valR :: rs) left k l =
      (match mergeLoop ls (valR :: rs) left (k+1) (moveElementToIndexRun l c k).1 with
       | some r => some (r.1, cmpEvs ++ (moveElementToIndexRun l c k).2 ++ r.2)
       | none => none) := by
  cases hfR : findIdxFrom l left valR with
  | some idxR =>
    refine ⟨[Ev.comp c idxR], ?_⟩
    simp only [mergeLoop, hf, hfR, if_pos hcmp]
  | none =>
    refine ⟨[], ?_⟩
    simp only [mergeLoop, hf, hfR, if_pos hcmp]

theorem C2_merge_left_preference_witness :
    ∃ cmpEvs, mergeLoop [(5 : Int)] [(5 : Int)] 0 0 [⟨0,5⟩, ⟨1,5⟩] =
      (match mergeLoop [] [(5 : Int)] 0 1 (moveElementToIndexRun [⟨0,5⟩, ⟨1,5⟩] 0 0).1 with
       | some r => some (r.1, cmpEvs ++ (moveElementToIndexRun [⟨0,5⟩, ⟨1,5⟩] 0 0).2 ++ r.2)
       | none => none) :=
  C2_merge_left_preference 5 5 [] [] 0 0 [⟨0,5⟩, ⟨1,5⟩] 0 (by decide) (by decide)
